import Mathlib

/-!
Verification development for the PyRate minimum-spanning-tree core
(`pyrate/mst.py`, plus `Ifg.nan_fraction` from `pyrate/shared.py`).

Embedding conventions:
* Epochs (acquisition dates) are opaque comparable identifiers, modelled as `ℕ`.
* An interferogram edge id is its DATE12 pair `(master, slave)`.
* A phase value is `Option ℚ`: `none` models the NaN missing marker,
  `some q` a finite value.  The only operations the core performs on phase
  values are the NaN test and (inside `nan_fraction`) the comparison with `0`.
* The external `pygraph` primitives (`graph`, `minimal_spanning_tree`) and the
  epoch-list helpers from `algorithm.py` are not part of this repository's
  sources; they are modelled from the spec where marked.
-/

namespace PyRate

/-- Epochs are opaque comparable/hashable identifiers (spec §3). -/
abbrev Epoch := ℕ

/-- An edge id: the DATE12 unordered pair, always addressed by the same
orientation `(master, slave)` throughout the program. -/
abbrev Edge := Epoch × Epoch

/-- Edge weight: the interferogram's nan fraction, an exact rational. -/
abbrev Weight := ℚ

/-- A phase value; `none` models the NaN missing marker. -/
abbrev Phase := Option ℚ

/-- Test for the missing marker (numpy `isnan`). -/
def isnan (v : Phase) : Bool := v.isNone

/-- Error kinds of the design (spec §7). -/
inductive PyRateError where
  | InvalidTopologyError
  | DuplicateEdgeError
  | DisconnectedGraphError
deriving DecidableEq, Repr

/-- The mutable pygraph graph state: fixed node list plus the currently
active edges with their weights (spec §3 "Graph state"). -/
structure graph where
  nodes : List Epoch
  edges : List (Edge × Weight)
deriving DecidableEq, Repr

/-- pygraph `graph.has_edge`: is the edge id currently active? -/
def graph.has_edge (g : graph) (e : Edge) : Bool :=
  g.edges.any (fun p => p.1 = e)

/-- pygraph `graph.add_edge(edge, wt=weight)`: activate an edge
(callers in `mst.py` only invoke it when the edge is absent). -/
def graph.add_edge (g : graph) (e : Edge) (w : Weight) : graph :=
  { g with edges := g.edges ++ [(e, w)] }

/-- pygraph `graph.del_edge`: deactivate an edge id. -/
def graph.del_edge (g : graph) (e : Edge) : graph :=
  { g with edges := g.edges.filter (fun p => p.1 ≠ e) }

/-- Modelled from the spec: graph construction with validation (§4.1), the
`g.add_nodes` / `g.add_edge` loops of `mst.py` lines 37–40 and 61–64 whose
checks live in the external pygraph library.  Validates every edge's
endpoints against the epoch set (`InvalidTopologyError`), rejects duplicate
edge ids (`DuplicateEdgeError`), and otherwise produces the graph with all
edges active. -/
def buildGraph (epochs : List Epoch) (ews : List (Edge × Weight)) :
    Except PyRateError graph :=
  if ¬ (∀ p ∈ ews, p.1.1 ∈ epochs ∧ p.1.2 ∈ epochs) then
    .error .InvalidTopologyError
  else if ¬ (ews.map Prod.fst).Nodup then
    .error .DuplicateEdgeError
  else
    .ok ⟨epochs, ews⟩

/-- Encode an edge id injectively into `ℕ` for canonical ordering. -/
def code (e : Edge) : ℕ := Nat.pair e.1 e.2

/-- Canonical ordering of weighted edges: by encoded edge id (the spec §4.2
tie-break rule "stable by edge-id ordering"). -/
def edgeLe (p q : Edge × Weight) : Prop := code p.1 ≤ code q.1

instance : DecidableRel edgeLe := fun p q =>
  inferInstanceAs (Decidable (code p.1 ≤ code q.1))

instance : IsTotal (Edge × Weight) edgeLe := ⟨fun p q => Nat.le_total _ _⟩

instance : IsTrans (Edge × Weight) edgeLe := ⟨fun _ _ _ => Nat.le_trans⟩

/-- Canonical node order used by the deterministic oracle. -/
def canonNodes (g : graph) : List Epoch := List.insertionSort (· ≤ ·) g.nodes

/-- Canonical active-edge order used by the deterministic oracle. -/
def canonEdges (g : graph) : List (Edge × Weight) :=
  List.insertionSort edgeLe g.edges

/-- Orient an active edge across the visited frontier, if it crosses it. -/
def crossDir (visited : List Epoch) (p : Edge × Weight) :
    Option (Epoch × Epoch × Weight) :=
  if p.1.1 ∈ visited ∧ p.1.2 ∉ visited then some (p.1.1, p.1.2, p.2)
  else if p.1.2 ∈ visited ∧ p.1.1 ∉ visited then some (p.1.2, p.1.1, p.2)
  else none

/-- Pick a lightest crossing edge (first of minimal weight in the canonical
edge order). -/
def pickCrossing (E : List (Edge × Weight)) (visited : List Epoch) :
    Option (Epoch × Epoch × Weight) :=
  (E.filterMap (crossDir visited)).foldl
    (fun best c =>
      match best with
      | none => some c
      | some b => if c.2.2 < b.2.2 then some c else some b)
    none

/-- Prim-style growth loop: each successful step attaches one unvisited node
`v` through a crossing edge from a visited node `u`, recording `v ↦ some u`.
Runs out of crossing edges before the fuel is spent only when the active
edges do not span all nodes. -/
def primLoop (E : List (Edge × Weight)) :
    ℕ → List Epoch → List (Epoch × Option Epoch) →
    Except PyRateError (List (Epoch × Option Epoch))
  | 0, _, tree => .ok tree
  | k + 1, visited, tree =>
    match pickCrossing E visited with
    | none => .error .DisconnectedGraphError
    | some (u, v, _) => primLoop E k (v :: visited) ((v, some u) :: tree)

/-- Modelled from the spec: the external MST primitive wrapped by the
SpanningTreeOracle (§4.2), absent from this repository's sources (it lives in
`pygraph.algorithms.minmax`).  Deterministic given the active edge weights
with tie-break stable by edge-id ordering; returns a parent map whose
synthetic root carries the root marker `none`; raises
`DisconnectedGraphError` (the spec's mandated choice (a)) when the active
edges do not span all nodes. -/
def minimal_spanning_tree (g : graph) :
    Except PyRateError (List (Epoch × Option Epoch)) :=
  match canonNodes g with
  | [] => .ok []
  | r :: rest => primLoop (canonEdges g) rest.length [r] [(r, none)]

/-- `mst.py` lines 19–24: discard pygraph's root node (the entries whose
value is the root marker) from an MST dict. -/
def _remove_root_node (mst : List (Epoch × Option Epoch)) :
    List (Epoch × Option Epoch) :=
  mst.filter (fun p => p.2.isSome)

/-- The interferogram attributes the MST core reads (`shared.py`). -/
structure Ifg where
  DATE12 : Edge
  FILE_LENGTH : ℕ
  WIDTH : ℕ
  phase_data : List (List Phase)
  nan_converted : Bool
deriving DecidableEq, Repr

/-- `shared.py` line 50: `num_cells = FILE_LENGTH * WIDTH`. -/
def Ifg.num_cells (i : Ifg) : ℕ := i.FILE_LENGTH * i.WIDTH

/-- Count of missing (NaN) cells in a phase band. -/
def countNan (rows : List (List Phase)) : ℕ :=
  (rows.map (fun r => (r.filter isnan).length)).sum

/-- Count of cells equal to zero in a phase band. -/
def countZero (rows : List (List Phase)) : ℕ :=
  (rows.map (fun r => (r.filter (fun v => v = some 0)).length)).sum

/-- `shared.py` lines 166–177 (`Ifg.nan_fraction`): proportion of NaN cells,
falling back to counting zero cells when `nan_converted` is false and no NaN
was found. -/
def Ifg.nan_fraction (i : Ifg) : ℚ :=
  let nan_count := countNan i.phase_data
  let nan_count :=
    if i.nan_converted = false ∧ nan_count = 0 then countZero i.phase_data
    else nan_count
  (nan_count : ℚ) / (i.num_cells : ℚ)

/-- `shared.py` lines 212–218: the `EpochList` container (only `dates` is
read by `mst_matrix`). -/
structure EpochList where
  dates : List Epoch
deriving DecidableEq, Repr

/-- Modelled from the spec: `master_slave_ids(get_all_epochs(ifgs)).keys()`
from `algorithm.py`, which is not in the sources.  Per spec §3 the epoch set
is "derived from all interferograms' endpoint pairs; uniqueness enforced". -/
def uniqueEpochs (ifgs : List Ifg) : List Epoch :=
  (ifgs.flatMap (fun i => [i.DATE12.1, i.DATE12.2])).dedup

/-- The DATE12 edge ids of a stack (`mst.py` lines 33 / 57). -/
def ifgEdges (ifgs : List Ifg) : List Edge := ifgs.map Ifg.DATE12

/-- The nan-fraction weights of a stack (`mst.py` lines 35 / 58). -/
def ifgWeights (ifgs : List Ifg) : List Weight := ifgs.map Ifg.nan_fraction

/-- The zipped edge/weight association used by both entry points. -/
def ifgEws (ifgs : List Ifg) : List (Edge × Weight) :=
  (ifgEdges ifgs).zip (ifgWeights ifgs)

/-- `mst.py` lines 27–45: whole-scene MST with the root optionally
stripped (a raised error propagates to the caller). -/
def default_mst (ifgs : List Ifg) (noroot : Bool := true) :
    Except PyRateError (List (Epoch × Option Epoch)) :=
  match buildGraph (uniqueEpochs ifgs) (ifgEws ifgs) with
  | .error e => .error e
  | .ok g =>
    match minimal_spanning_tree g with
    | .error e => .error e
    | .ok mst => .ok (if noroot then _remove_root_node mst else mst)

/-- One step of the dynamic graph adjustment (`mst.py` lines 87–93): make
the presence of one edge agree with the validity of the pixel's value. -/
def syncStep (g : graph) (t : Phase × Edge × Weight) : graph :=
  if ¬ isnan t.1 then
    if ¬ g.has_edge t.2.1 then g.add_edge t.2.1 t.2.2 else g
  else
    if g.has_edge t.2.1 then g.del_edge t.2.1 else g

/-- The full adjustment loop over `zip(values, edges, weights)`. -/
def syncEdges (g : graph) (l : List (Phase × Edge × Weight)) : graph :=
  l.foldl syncStep g

/-- The edges a pixel should have active: those whose value is not NaN
(positional zip against the edge/weight table). -/
def activeEdges (values : List Phase) (ews : List (Edge × Weight)) :
    List (Edge × Weight) :=
  (values.zip ews).filterMap (fun t => if isnan t.1 then none else some t.2)

/-- One cell of the result grid: a (root-stripped) spanning tree, or the
no-data sentinel `nan` stored for totally missing pixels. -/
inductive Cell where
  | tree (t : List (Epoch × Option Epoch))
  | nodata
deriving DecidableEq, Repr

/-- Outcome of processing one pixel: the stored cell, the shared graph after
the visit, and how many times the spanning-tree oracle was invoked. -/
structure PixelOutcome where
  cell : Cell
  g : graph
  oracle_calls : ℕ
deriving DecidableEq, Repr

/-- The body of the pixel loop (`mst.py` lines 75–96): count NaNs, take a
fast path for all-valid or all-missing pixels, otherwise sync the shared
graph against the pixel's validity mask and invoke the oracle. -/
def processPixel (edges : List Edge) (weights : List Weight) (num_ifgs : ℕ)
    (dmst : List (Epoch × Option Epoch)) (g : graph) (values : List Phase) :
    Except PyRateError PixelOutcome :=
  let nc := (values.filter isnan).length
  if nc = 0 then .ok ⟨.tree dmst, g, 0⟩
  else if nc = num_ifgs then .ok ⟨.nodata, g, 0⟩
  else
    let g2 := syncEdges g (values.zip (edges.zip weights))
    (minimal_spanning_tree g2).map
      (fun m => ⟨.tree (_remove_root_node m), g2, 1⟩)

/-- `data_stack[:, y, x]` for one interferogram: the phase value at a pixel
(out-of-range reads never occur for well-formed stacks). -/
def stackVal (i : Ifg) (y x : ℕ) : Phase :=
  (((i.phase_data.get? y).getD []).get? x).getD none

/-- The stack of all interferogram values for one pixel. -/
def pixelValues (ifgs : List Ifg) (y x : ℕ) : List Phase :=
  ifgs.map (fun i => stackVal i y x)

/-- Row extent of the result grid: `i.FILE_LENGTH` where `i` is the leaked
list-comprehension variable, i.e. the last interferogram. -/
def matrixRows (ifgs : List Ifg) : ℕ :=
  ((ifgs.getLast?).map Ifg.FILE_LENGTH).getD 0

/-- Column extent of the result grid: `i.WIDTH` of the last interferogram. -/
def matrixCols (ifgs : List Ifg) : ℕ :=
  ((ifgs.getLast?).map Ifg.WIDTH).getD 0

/-- `itertools.product(xrange(rows), xrange(cols))`: row-major pixel
enumeration. -/
def pixelList (rows cols : ℕ) : List (ℕ × ℕ) :=
  (List.range rows).product (List.range cols)

/-- The pixel loop of `mst_matrix`, threading the shared graph and emitting
one write per pixel in traversal order. -/
def runPixels (ifgs : List Ifg) (dmst : List (Epoch × Option Epoch))
    (g : graph) (acc : List ((ℕ × ℕ) × Cell)) :
    List (ℕ × ℕ) → Except PyRateError (List ((ℕ × ℕ) × Cell))
  | [] => .ok acc
  | p :: ps =>
    match processPixel (ifgEdges ifgs) (ifgWeights ifgs) ifgs.length dmst g
        (pixelValues ifgs p.1 p.2) with
    | .error e => .error e
    | .ok out => runPixels ifgs dmst out.g (acc ++ [(p, out.cell)]) ps

/-- `mst.py` lines 48–98: per-pixel MST matrix.  The result grid is the list
of `((y, x), cell)` writes performed by the loop, in traversal order (a
raised error propagates to the caller). -/
def mst_matrix (ifgs : List Ifg) (epochs : EpochList) :
    Except PyRateError (List ((ℕ × ℕ) × Cell)) :=
  match buildGraph epochs.dates (ifgEws ifgs) with
  | .error e => .error e
  | .ok g =>
    match minimal_spanning_tree g with
    | .error e => .error e
    | .ok dmst0 =>
      runPixels ifgs (_remove_root_node dmst0) g []
        (pixelList (matrixRows ifgs) (matrixCols ifgs))

/-! ### Concrete test fixtures (the spec §8 scenario and variants) -/

/-- Edge E1–E2, 2×2 band with NaNs at (0,1) and (1,0); weight 1/2. -/
def i1 : Ifg := ⟨(1, 2), 2, 2, [[some 1, none], [none, some 1]], true⟩

/-- Edge E2–E3, 2×2 band with NaNs at (1,0) and (1,1); weight 1/2. -/
def i2 : Ifg := ⟨(2, 3), 2, 2, [[some 1, some 1], [none, none]], true⟩

/-- Edge E1–E3, 2×2 band with a NaN at (1,0); weight 1/4. -/
def i3 : Ifg := ⟨(1, 3), 2, 2, [[some 1, some 1], [none, some 1]], true⟩

/-- The three-interferogram 2×2 stack of spec §8. -/
def ifgsW : List Ifg := [i1, i2, i3]

/-- The epoch list for the triangle scenario. -/
def epochsW : EpochList := ⟨[1, 2, 3]⟩

/-- A fully valid (no NaN anywhere) 1×1 variant of the triangle stack. -/
def j1 : Ifg := ⟨(1, 2), 1, 1, [[some 1]], true⟩

def j2 : Ifg := ⟨(2, 3), 1, 1, [[some 2]], true⟩

def j3 : Ifg := ⟨(1, 3), 1, 1, [[some 3]], true⟩

def jfgsW : List Ifg := [j1, j2, j3]

/-- A 1×1 variant whose only pixel keeps just the E1–E2 edge, leaving E3
disconnected. -/
def k1 : Ifg := ⟨(1, 2), 1, 1, [[some 1]], true⟩

def k2 : Ifg := ⟨(2, 3), 1, 1, [[none]], true⟩

def k3 : Ifg := ⟨(1, 3), 1, 1, [[none]], true⟩

def kfgsW : List Ifg := [k1, k2, k3]

/-- The base graph of the triangle scenario with all edges active. -/
def gW : graph := ⟨[1, 2, 3], ifgEws ifgsW⟩

/-- The base MST of the triangle scenario (root stripped). -/
def dmstW : List (Epoch × Option Epoch) := [(2, some 1), (3, some 1)]

/-- The tree stored at pixel (0,1) of the scenario. -/
def tW01 : List (Epoch × Option Epoch) := [(2, some 3), (3, some 1)]

/-- The full result grid of `mst_matrix` on the scenario. -/
def writesW : List ((ℕ × ℕ) × Cell) :=
  [((0, 0), .tree dmstW), ((0, 1), .tree tW01),
   ((1, 0), .nodata), ((1, 1), .tree dmstW)]

/-! ### Basic graph-state lemmas -/

/-- The graph invariant maintained across the pixel loop: active-edge ids are
pairwise distinct and every active entry comes from the edge/weight table. -/
def GoodGraph (ews : List (Edge × Weight)) (g : graph) : Prop :=
  (g.edges.map Prod.fst).Nodup ∧ ∀ p ∈ g.edges, p ∈ ews

theorem has_edge_iff (g : graph) (e : Edge) :
    g.has_edge e = true ↔ ∃ w, (e, w) ∈ g.edges := by
  simp only [graph.has_edge, List.any_eq_true, decide_eq_true_eq]
  constructor
  · rintro ⟨p, hp, hpe⟩
    exact ⟨p.2, by rwa [← hpe]⟩
  · rintro ⟨w, hw⟩
    exact ⟨(e, w), hw, rfl⟩

theorem mem_add_edge (g : graph) (e : Edge) (w : Weight) (p : Edge × Weight) :
    p ∈ (g.add_edge e w).edges ↔ p ∈ g.edges ∨ p = (e, w) := by
  simp [graph.add_edge]

theorem mem_del_edge (g : graph) (e : Edge) (p : Edge × Weight) :
    p ∈ (g.del_edge e).edges ↔ p ∈ g.edges ∧ p.1 ≠ e := by
  simp [graph.del_edge]

theorem syncStep_nodes (g : graph) (t : Phase × Edge × Weight) :
    (syncStep g t).nodes = g.nodes := by
  unfold syncStep graph.add_edge graph.del_edge
  split <;> split <;> rfl

theorem syncEdges_nodes (l : List (Phase × Edge × Weight)) (g : graph) :
    (syncEdges g l).nodes = g.nodes := by
  induction l generalizing g with
  | nil => rfl
  | cons t l ih =>
    show (syncEdges (syncStep g t) l).nodes = g.nodes
    rw [ih, syncStep_nodes]

theorem syncStep_keys_nodup (g : graph) (t : Phase × Edge × Weight)
    (h : (g.edges.map Prod.fst).Nodup) :
    ((syncStep g t).edges.map Prod.fst).Nodup := by
  unfold syncStep
  split
  · split
    · rename_i hne
      have he : t.2.1 ∉ g.edges.map Prod.fst := by
        intro hmem
        rw [List.mem_map] at hmem
        obtain ⟨p, hp, hpe⟩ := hmem
        refine hne ((has_edge_iff g t.2.1).mpr ⟨p.2, ?_⟩)
        have hp' : (p.1, p.2) ∈ g.edges := by simpa using hp
        rwa [hpe] at hp'
      have hmap : (g.add_edge t.2.1 t.2.2).edges.map Prod.fst
          = g.edges.map Prod.fst ++ [t.2.1] := by
        simp [graph.add_edge]
      rw [hmap, List.nodup_append]
      refine ⟨h, List.nodup_singleton _, ?_⟩
      intro a ha hb
      rw [List.mem_singleton] at hb
      exact he (hb ▸ ha)
    · exact h
  · split
    · exact List.Nodup.sublist
        (List.Sublist.map Prod.fst (List.filter_sublist g.edges)) h
    · exact h

theorem syncStep_sub (ews : List (Edge × Weight)) (g : graph)
    (t : Phase × Edge × Weight) (ht : t.2 ∈ ews)
    (h : ∀ p ∈ g.edges, p ∈ ews) :
    ∀ p ∈ (syncStep g t).edges, p ∈ ews := by
  unfold syncStep
  split
  · split
    · intro p hp
      rcases (mem_add_edge g t.2.1 t.2.2 p).mp hp with h' | h'
      · exact h p h'
      · rwa [h']
    · exact h
  · split
    · intro p hp
      exact h p ((mem_del_edge g t.2.1 p).mp hp).1
    · exact h

theorem syncEdges_good (ews : List (Edge × Weight))
    (l : List (Phase × Edge × Weight)) (g : graph)
    (hl : ∀ t ∈ l, t.2 ∈ ews) (hg : GoodGraph ews g) :
    GoodGraph ews (syncEdges g l) := by
  induction l generalizing g with
  | nil => exact hg
  | cons t l ih =>
    show GoodGraph ews (syncEdges (syncStep g t) l)
    exact ih (syncStep g t)
      (fun t' ht' => hl t' (List.mem_cons_of_mem _ ht'))
      ⟨syncStep_keys_nodup g t hg.1,
        syncStep_sub ews g t (hl t (List.mem_cons_self _ _)) hg.2⟩

theorem syncEdges_mem (l : List (Phase × Edge × Weight)) :
    ∀ g : graph, (l.map (fun t => t.2.1)).Nodup →
    (∀ q ∈ g.edges, q.1 ∈ l.map (fun t => t.2.1) → q ∈ l.map (fun t => t.2)) →
    ∀ p : Edge × Weight, p ∈ (syncEdges g l).edges ↔
      (p ∈ g.edges ∧ p.1 ∉ l.map (fun t => t.2.1)) ∨
      ∃ v, (v, p) ∈ l ∧ isnan v = false := by
  induction l with
  | nil => intro g _ _ p; simp [syncEdges]
  | cons t l ih =>
    obtain ⟨v, ew⟩ := t
    intro g hnd hg p
    have hnd1 : ew.1 ∉ l.map (fun t => t.2.1) := by
      have := hnd; simp only [List.map_cons, List.nodup_cons] at this
      exact this.1
    have hnd2 : (l.map (fun t => t.2.1)).Nodup := by
      have := hnd; simp only [List.map_cons, List.nodup_cons] at this
      exact this.2
    have key_of_val : ∀ q : Edge × Weight,
        q ∈ l.map (fun t => t.2) → q.1 ∈ l.map (fun t => t.2.1) := by
      intro q hq
      rw [List.mem_map] at hq ⊢
      obtain ⟨a, ha, hq⟩ := hq
      exact ⟨a, ha, by rw [← hq]⟩
    have hgl : ∀ q ∈ g.edges,
        q.1 ∈ l.map (fun t => t.2.1) → q ∈ l.map (fun t => t.2) := by
      intro q hq hk
      have hmem := hg q hq (by
        simp only [List.map_cons, List.mem_cons]; exact Or.inr hk)
      simp only [List.map_cons, List.mem_cons] at hmem
      rcases hmem with h' | h'
      · exact absurd (h' ▸ hk) hnd1
      · exact h'
    have hcons : p ∈ (syncEdges g ((v, ew) :: l)).edges
        ↔ p ∈ (syncEdges (syncStep g (v, ew)) l).edges := Iff.rfl
    rw [hcons]
    by_cases hv : isnan v = true
    · -- the pixel's value at this edge is missing: deactivate if present
      by_cases hh : g.has_edge ew.1 = true
      · have hstep : syncStep g (v, ew) = g.del_edge ew.1 := by
          simp [syncStep, hv, hh]
        rw [hstep]
        have hdel : ∀ q : Edge × Weight, q ∈ (g.del_edge ew.1).edges →
            q.1 ∈ l.map (fun t => t.2.1) → q ∈ l.map (fun t => t.2) := by
          intro q hq hk
          exact hgl q ((mem_del_edge g ew.1 q).mp hq).1 hk
        rw [ih (g.del_edge ew.1) hnd2 hdel p, mem_del_edge]
        constructor
        · rintro (⟨⟨hp, hne⟩, hk⟩ | ⟨v', hv', hval⟩)
          · exact Or.inl ⟨hp, by
              simp only [List.map_cons, List.mem_cons]
              rintro (h' | h')
              exacts [hne h', hk h']⟩
          · exact Or.inr ⟨v', List.mem_cons_of_mem _ hv', hval⟩
        · rintro (⟨hp, hk⟩ | ⟨v', hv', hval⟩)
          · simp only [List.map_cons, List.mem_cons] at hk
            push_neg at hk
            exact Or.inl ⟨⟨hp, hk.1⟩, hk.2⟩
          · rcases List.mem_cons.mp hv' with h' | h'
            · have hvv : v' = v := by simpa using congrArg Prod.fst h'
              rw [hvv, hv] at hval
              simp at hval
            · exact Or.inr ⟨v', h', hval⟩
      · have hstep : syncStep g (v, ew) = g := by
          simp [syncStep, hv, hh]
        rw [hstep, ih g hnd2 hgl p]
        have hkey : ∀ hp : p ∈ g.edges, p.1 ≠ ew.1 := by
          intro hp he
          exact hh ((has_edge_iff g ew.1).mpr ⟨p.2, by
            have : (p.1, p.2) ∈ g.edges := by simpa using hp
            rwa [he] at this⟩)
        constructor
        · rintro (⟨hp, hk⟩ | ⟨v', hv', hval⟩)
          · exact Or.inl ⟨hp, by
              simp only [List.map_cons, List.mem_cons]
              rintro (h' | h')
              exacts [hkey hp h', hk h']⟩
          · exact Or.inr ⟨v', List.mem_cons_of_mem _ hv', hval⟩
        · rintro (⟨hp, hk⟩ | ⟨v', hv', hval⟩)
          · simp only [List.map_cons, List.mem_cons] at hk
            push_neg at hk
            exact Or.inl ⟨hp, hk.2⟩
          · rcases List.mem_cons.mp hv' with h' | h'
            · have hvv : v' = v := by simpa using congrArg Prod.fst h'
              rw [hvv, hv] at hval
              simp at hval
            · exact Or.inr ⟨v', h', hval⟩
    · -- the value is present: activate the edge if it is absent
      rw [Bool.not_eq_true] at hv
      by_cases hh : g.has_edge ew.1 = true
      · have hstep : syncStep g (v, ew) = g := by
          simp [syncStep, hv, hh]
        rw [hstep, ih g hnd2 hgl p]
        have hwt : ew ∈ g.edges ∧ ew.1 ∉ l.map (fun t => t.2.1) := by
          obtain ⟨w', hw'⟩ := (has_edge_iff g ew.1).mp hh
          have hmem := hg (ew.1, w') hw' (by simp)
          simp only [List.map_cons, List.mem_cons] at hmem
          rcases hmem with h' | h'
          · exact ⟨by rwa [← h'], hnd1⟩
          · exact absurd (key_of_val _ h') hnd1
        constructor
        · rintro (⟨hp, hk⟩ | ⟨v', hv', hval⟩)
          · by_cases he : p.1 = ew.1
            · have hpe : p = ew := by
                have hmem := hg p hp (by
                  simp only [List.map_cons, List.mem_cons]; exact Or.inl he)
                simp only [List.map_cons, List.mem_cons] at hmem
                rcases hmem with h' | h'
                · exact h'
                · exact absurd (key_of_val _ h') (he ▸ hk)
              subst hpe
              exact Or.inr ⟨v, List.mem_cons_self _ _, hv⟩
            · exact Or.inl ⟨hp, by
                simp only [List.map_cons, List.mem_cons]
                rintro (h' | h')
                exacts [he h', hk h']⟩
          · exact Or.inr ⟨v', List.mem_cons_of_mem _ hv', hval⟩
        · rintro (⟨hp, hk⟩ | ⟨v', hv', hval⟩)
          · simp only [List.map_cons, List.mem_cons] at hk
            push_neg at hk
            exact Or.inl ⟨hp, hk.2⟩
          · rcases List.mem_cons.mp hv' with h' | h'
            · have hpe : p = ew := congrArg Prod.snd h'
              exact Or.inl (hpe ▸ hwt)
            · exact Or.inr ⟨v', h', hval⟩
      · have hstep : syncStep g (v, ew) = g.add_edge ew.1 ew.2 := by
          simp [syncStep, hv, hh]
        rw [hstep]
        have hadd : ∀ q : Edge × Weight, q ∈ (g.add_edge ew.1 ew.2).edges →
            q.1 ∈ l.map (fun t => t.2.1) → q ∈ l.map (fun t => t.2) := by
          intro q hq hk
          rcases (mem_add_edge g ew.1 ew.2 q).mp hq with h' | h'
          · exact hgl q h' hk
          · rw [h'] at hk
            exact absurd hk hnd1
        rw [ih (g.add_edge ew.1 ew.2) hnd2 hadd p, mem_add_edge]
        have hkey : ∀ hp : p ∈ g.edges, p.1 ≠ ew.1 := by
          intro hp he
          exact hh ((has_edge_iff g ew.1).mpr ⟨p.2, by
            have : (p.1, p.2) ∈ g.edges := by simpa using hp
            rwa [he] at this⟩)
        constructor
        · rintro (⟨hp | hp, hk⟩ | ⟨v', hv', hval⟩)
          · exact Or.inl ⟨hp, by
              simp only [List.map_cons, List.mem_cons]
              rintro (h' | h')
              exacts [hkey hp h', hk h']⟩
          · have hpe : p = ew := by rw [hp]
            subst hpe
            exact Or.inr ⟨v, List.mem_cons_self _ _, hv⟩
          · exact Or.inr ⟨v', List.mem_cons_of_mem _ hv', hval⟩
        · rintro (⟨hp, hk⟩ | ⟨v', hv', hval⟩)
          · simp only [List.map_cons, List.mem_cons] at hk
            push_neg at hk
            exact Or.inl ⟨Or.inl hp, hk.2⟩
          · rcases List.mem_cons.mp hv' with h' | h'
            · have hpe : p = ew := congrArg Prod.snd h'
              exact Or.inl ⟨Or.inr (by rw [hpe]), hpe ▸ hnd1⟩
            · exact Or.inr ⟨v', h', hval⟩

theorem activeEdges_sublist (values : List Phase) :
    ∀ ews : List (Edge × Weight), (activeEdges values ews).Sublist ews := by
  induction values with
  | nil => intro ews; simp [activeEdges]
  | cons v vs ih =>
    intro ews
    cases ews with
    | nil => simp [activeEdges]
    | cons e es =>
      by_cases hv : isnan v = true
      · simpa [activeEdges, List.filterMap_cons, hv] using (ih es).cons e
      · rw [Bool.not_eq_true] at hv
        simpa [activeEdges, List.filterMap_cons, hv] using (ih es).cons₂ e

theorem activeEdges_mem (values : List Phase) (ews : List (Edge × Weight))
    (p : Edge × Weight) :
    p ∈ activeEdges values ews ↔
      ∃ v, (v, p) ∈ values.zip ews ∧ isnan v = false := by
  simp only [activeEdges, List.mem_filterMap]
  constructor
  · rintro ⟨t, ht, hf⟩
    by_cases hv : isnan t.1 = true
    · simp [hv] at hf
    · rw [Bool.not_eq_true] at hv
      simp only [hv, Bool.false_eq_true, if_false, Option.some.injEq] at hf
      refine ⟨t.1, ?_, hv⟩
      have ht' : (t.1, t.2) ∈ values.zip ews := by simpa using ht
      rwa [hf] at ht'
  · rintro ⟨v, hv', hval⟩
    exact ⟨(v, p), hv', by simp [hval]⟩

theorem syncEdges_active (values : List Phase) (ews : List (Edge × Weight))
    (g : graph) (hlen : ews.length ≤ values.length)
    (hnd : (ews.map Prod.fst).Nodup) (hgood : GoodGraph ews g) :
    ∀ p, p ∈ (syncEdges g (values.zip ews)).edges ↔
      p ∈ activeEdges values ews := by
  have hvals : (values.zip ews).map (fun t => t.2) = ews := by
    simpa using List.map_snd_zip values ews hlen
  have hkeys : (values.zip ews).map (fun t => t.2.1) = ews.map Prod.fst := by
    calc (values.zip ews).map (fun t => t.2.1)
        = ((values.zip ews).map (fun t => t.2)).map Prod.fst := by
          rw [List.map_map]; rfl
      _ = ews.map Prod.fst := by rw [hvals]
  intro p
  rw [syncEdges_mem (values.zip ews) g (by rw [hkeys]; exact hnd)
      (fun q hq _ => by rw [hvals]; exact hgood.2 q hq) p, activeEdges_mem]
  constructor
  · rintro (⟨hp, hk⟩ | h)
    · exact (hk (by
        rw [hkeys]
        exact List.mem_map_of_mem Prod.fst (hgood.2 p hp))).elim
    · exact h
  · exact fun h => Or.inr h

theorem syncEdges_zip_good (values : List Phase) (ews : List (Edge × Weight))
    (g : graph) (hlen : ews.length ≤ values.length) (hgood : GoodGraph ews g) :
    GoodGraph ews (syncEdges g (values.zip ews)) := by
  have hvals : (values.zip ews).map (fun t => t.2) = ews := by
    simpa using List.map_snd_zip values ews hlen
  refine syncEdges_good ews (values.zip ews) g ?_ hgood
  intro t ht
  rw [← hvals]
  exact List.mem_map_of_mem _ ht

theorem syncEdges_perm_active (values : List Phase) (ews : List (Edge × Weight))
    (g : graph) (hlen : ews.length ≤ values.length)
    (hnd : (ews.map Prod.fst).Nodup) (hgood : GoodGraph ews g) :
    (syncEdges g (values.zip ews)).edges.Perm (activeEdges values ews) := by
  have nd1 : (syncEdges g (values.zip ews)).edges.Nodup :=
    List.Nodup.of_map Prod.fst (syncEdges_zip_good values ews g hlen hgood).1
  have nd2 : (activeEdges values ews).Nodup :=
    List.Nodup.of_map Prod.fst
      (List.Nodup.sublist (List.Sublist.map Prod.fst (activeEdges_sublist values ews)) hnd)
  exact (List.perm_ext_iff_of_nodup nd1 nd2).mpr
    (syncEdges_active values ews g hlen hnd hgood)

/-! ### Canonical forms are insensitive to edge/node order -/

/-- Strict version of the canonical edge order. -/
def edgeLt (p q : Edge × Weight) : Prop := code p.1 < code q.1

instance : IsAntisymm (Edge × Weight) edgeLt :=
  ⟨fun _ _ h h' => absurd (Nat.lt_trans h h') (Nat.lt_irrefl _)⟩

theorem sorted_edgeLt (l : List (Edge × Weight)) (hs : List.Sorted edgeLe l)
    (hnd : (l.map Prod.fst).Nodup) : List.Sorted edgeLt l := by
  have hne : l.Pairwise (fun a b => a.1 ≠ b.1) := List.pairwise_map.mp hnd
  refine (List.Pairwise.and hs hne).imp ?_
  rintro a b ⟨hle, hne'⟩
  refine lt_of_le_of_ne hle ?_
  intro hc
  have hcc := Nat.pair_eq_pair.mp hc
  exact hne' (Prod.ext hcc.1 hcc.2)

theorem canonEdges_congr (g₁ g₂ : graph)
    (h₁ : (g₁.edges.map Prod.fst).Nodup) (h₂ : (g₂.edges.map Prod.fst).Nodup)
    (hm : ∀ p, p ∈ g₁.edges ↔ p ∈ g₂.edges) :
    canonEdges g₁ = canonEdges g₂ := by
  have nd₁ : g₁.edges.Nodup := List.Nodup.of_map Prod.fst h₁
  have nd₂ : g₂.edges.Nodup := List.Nodup.of_map Prod.fst h₂
  have hperm : g₁.edges.Perm g₂.edges :=
    (List.perm_ext_iff_of_nodup nd₁ nd₂).mpr hm
  have hp : (canonEdges g₁).Perm (canonEdges g₂) :=
    ((List.perm_insertionSort edgeLe g₁.edges).trans hperm).trans
      (List.perm_insertionSort edgeLe g₂.edges).symm
  have k₁ : ((canonEdges g₁).map Prod.fst).Nodup :=
    ((List.perm_insertionSort edgeLe g₁.edges).map Prod.fst).nodup_iff.mpr h₁
  have k₂ : ((canonEdges g₂).map Prod.fst).Nodup :=
    ((List.perm_insertionSort edgeLe g₂.edges).map Prod.fst).nodup_iff.mpr h₂
  exact List.eq_of_perm_of_sorted hp
    (sorted_edgeLt _ (List.sorted_insertionSort edgeLe g₁.edges) k₁)
    (sorted_edgeLt _ (List.sorted_insertionSort edgeLe g₂.edges) k₂)

theorem canonNodes_congr (g₁ g₂ : graph) (h : g₁.nodes.Perm g₂.nodes) :
    canonNodes g₁ = canonNodes g₂ := by
  have hp : (canonNodes g₁).Perm (canonNodes g₂) :=
    ((List.perm_insertionSort _ g₁.nodes).trans h).trans
      (List.perm_insertionSort _ g₂.nodes).symm
  exact List.eq_of_perm_of_sorted hp
    (List.sorted_insertionSort _ g₁.nodes) (List.sorted_insertionSort _ g₂.nodes)

theorem mst_congr (g₁ g₂ : graph) (hn : g₁.nodes.Perm g₂.nodes)
    (h₁ : (g₁.edges.map Prod.fst).Nodup) (h₂ : (g₂.edges.map Prod.fst).Nodup)
    (hm : ∀ p, p ∈ g₁.edges ↔ p ∈ g₂.edges) :
    minimal_spanning_tree g₁ = minimal_spanning_tree g₂ := by
  unfold minimal_spanning_tree
  rw [canonNodes_congr g₁ g₂ hn, canonEdges_congr g₁ g₂ h₁ h₂ hm]

/-! ### Properties of the spec-modelled Prim loop -/

/-- Two epochs joined by an active edge (in either orientation). -/
def adjacent (E : List (Edge × Weight)) (a b : Epoch) : Prop :=
  (∃ w, ((a, b), w) ∈ E) ∨ (∃ w, ((b, a), w) ∈ E)

/-- Reachability through active edges. -/
inductive Reach (E : List (Edge × Weight)) : Epoch → Epoch → Prop where
  | refl (x : Epoch) : Reach E x x
  | tail {x y z : Epoch} : Reach E x y → adjacent E y z → Reach E x z

/-- The active edges connect all the given nodes pairwise. -/
def connectsAll (nodes : List Epoch) (E : List (Edge × Weight)) : Prop :=
  ∀ x ∈ nodes, ∀ y ∈ nodes, Reach E x y

/-- A parent map is acyclic: some rank function strictly decreases from
child to parent. -/
def Acyclic (t : List (Epoch × Option Epoch)) : Prop :=
  ∃ f : Epoch → ℕ, ∀ p ∈ t, ∀ b, p.2 = some b → f b < f p.1

theorem adjacent_symm (E : List (Edge × Weight)) (a b : Epoch)
    (h : adjacent E a b) : adjacent E b a := h.symm

theorem Reach.trans (E : List (Edge × Weight)) {x y z : Epoch}
    (h₁ : Reach E x y) (h₂ : Reach E y z) : Reach E x z := by
  induction h₂ with
  | refl => exact h₁
  | tail _ hadj ih => exact Reach.tail ih hadj

theorem Reach.symm (E : List (Edge × Weight)) {x y : Epoch}
    (h : Reach E x y) : Reach E y x := by
  induction h with
  | refl => exact Reach.refl _
  | tail _ hadj ih =>
    exact Reach.trans E (Reach.tail (Reach.refl _) (adjacent_symm E _ _ hadj)) ih

theorem Reach_congr (E₁ E₂ : List (Edge × Weight))
    (hm : ∀ p, p ∈ E₁ ↔ p ∈ E₂) {x y : Epoch} (h : Reach E₁ x y) :
    Reach E₂ x y := by
  induction h with
  | refl => exact Reach.refl _
  | tail _ hadj ih =>
    refine Reach.tail ih ?_
    rcases hadj with ⟨w, hw⟩ | ⟨w, hw⟩
    · exact Or.inl ⟨w, (hm _).mp hw⟩
    · exact Or.inr ⟨w, (hm _).mp hw⟩

/-- A predicate closed under all active edges is preserved by reachability
(used to exhibit concrete disconnected graphs). -/
theorem Reach.closed (E : List (Edge × Weight)) (S : Epoch → Prop)
    (hS : ∀ p ∈ E, (S p.1.1 ↔ S p.1.2)) {x y : Epoch}
    (h : Reach E x y) (hx : S x) : S y := by
  induction h with
  | refl => exact hx
  | tail _ hadj ih =>
    rcases hadj with ⟨w, hw⟩ | ⟨w, hw⟩
    · exact (hS _ hw).mp ih
    · exact (hS _ hw).mpr ih

/-- The invariant of the Prim growth loop. -/
structure PrimInv (E : List (Edge × Weight)) (r : Epoch)
    (visited : List Epoch) (tree : List (Epoch × Option Epoch)) : Prop where
  keys : tree.map Prod.fst = visited
  nodup : visited.Nodup
  parent_mem : ∀ p ∈ tree, ∀ b, p.2 = some b → b ∈ visited
  parent_adj : ∀ p ∈ tree, ∀ b, p.2 = some b → adjacent E b p.1
  parent_idx : ∀ p ∈ tree, ∀ b, p.2 = some b →
    visited.indexOf p.1 < visited.indexOf b
  root_mem : r ∈ visited
  reach : ∀ x ∈ visited, Reach E r x
  nones : tree.filter (fun p => p.2.isNone) = [(r, none)]
  vis_sub : ∀ x ∈ visited, x = r ∨ ∃ q ∈ E, x = q.1.1 ∨ x = q.1.2

theorem crossDir_some (visited : List Epoch) (q : Edge × Weight)
    (u v : Epoch) (w : Weight) (h : crossDir visited q = some (u, v, w)) :
    u ∈ visited ∧ v ∉ visited ∧ (q.1 = (u, v) ∨ q.1 = (v, u)) := by
  unfold crossDir at h
  split at h
  · rename_i h1
    obtain ⟨h2, h3, h4⟩ : q.1.1 = u ∧ q.1.2 = v ∧ q.2 = w := by
      simpa using h
    exact ⟨h2 ▸ h1.1, h3 ▸ h1.2, Or.inl (Prod.ext h2 h3)⟩
  · split at h
    · rename_i h1
      obtain ⟨h2, h3, h4⟩ : q.1.2 = u ∧ q.1.1 = v ∧ q.2 = w := by
        simpa using h
      exact ⟨h2 ▸ h1.1, h3 ▸ h1.2, Or.inr (Prod.ext h3 h2)⟩
    · exact absurd h (by simp)

theorem foldl_pick_stays_some (l : List (Epoch × Epoch × Weight)) :
    ∀ b : Epoch × Epoch × Weight,
    l.foldl (fun best c =>
      match best with
      | none => some c
      | some b => if c.2.2 < b.2.2 then some c else some b) (some b) ≠ none := by
  induction l with
  | nil => intro b h; exact Option.noConfusion h
  | cons c l ih =>
    intro b
    show l.foldl _ (if c.2.2 < b.2.2 then some c else some b) ≠ none
    split
    · exact ih c
    · exact ih b

theorem foldl_pick_mem (l : List (Epoch × Epoch × Weight)) :
    ∀ (acc : Option (Epoch × Epoch × Weight)) (c : Epoch × Epoch × Weight),
    l.foldl (fun best c =>
      match best with
      | none => some c
      | some b => if c.2.2 < b.2.2 then some c else some b) acc = some c →
    c ∈ l ∨ acc = some c := by
  induction l with
  | nil => intro acc c h; exact Or.inr h
  | cons a l ih =>
    intro acc c h
    match acc with
    | none =>
      rcases ih (some a) c h with h' | h'
      · exact Or.inl (List.mem_cons_of_mem _ h')
      · exact Or.inl (by simp [(Option.some.inj h').symm])
    | some b =>
      have h' : l.foldl _ (if a.2.2 < b.2.2 then some a else some b) = some c := h
      split at h'
      · rcases ih (some a) c h' with h'' | h''
        · exact Or.inl (List.mem_cons_of_mem _ h'')
        · exact Or.inl (by simp [(Option.some.inj h'').symm])
      · rcases ih (some b) c h' with h'' | h''
        · exact Or.inl (List.mem_cons_of_mem _ h'')
        · exact Or.inr h''

theorem pickCrossing_none (E : List (Edge × Weight)) (visited : List Epoch)
    (h : pickCrossing E visited = none) :
    ∀ q ∈ E, crossDir visited q = none := by
  unfold pickCrossing at h
  cases hl : E.filterMap (crossDir visited) with
  | nil => exact fun q hq => List.filterMap_eq_nil_iff.mp hl q hq
  | cons c l =>
    rw [hl] at h
    exact absurd h (foldl_pick_stays_some l c)

theorem pickCrossing_some (E : List (Edge × Weight)) (visited : List Epoch)
    (c : Epoch × Epoch × Weight) (h : pickCrossing E visited = some c) :
    ∃ q ∈ E, crossDir visited q = some c := by
  unfold pickCrossing at h
  rcases foldl_pick_mem (E.filterMap (crossDir visited)) none c h with h' | h'
  · exact List.mem_filterMap.mp h'
  · exact absurd h' (by simp)

theorem PrimInv.step (E : List (Edge × Weight)) (r : Epoch)
    (visited : List Epoch) (tree : List (Epoch × Option Epoch))
    (u v : Epoch) (w : Weight) (inv : PrimInv E r visited tree)
    (hpick : pickCrossing E visited = some (u, v, w)) :
    PrimInv E r (v :: visited) ((v, some u) :: tree) := by
  obtain ⟨q, hq, hcd⟩ := pickCrossing_some E visited _ hpick
  obtain ⟨hu, hv, hdir⟩ := crossDir_some visited q u v w hcd
  have huv : u ≠ v := fun h => hv (h ▸ hu)
  have hadj : adjacent E u v := by
    rcases hdir with h' | h'
    · exact Or.inl ⟨q.2, by rw [← h']; simpa using hq⟩
    · exact Or.inr ⟨q.2, by rw [← h']; simpa using hq⟩
  refine ⟨?_, ?_, ?_, ?_, ?_, ?_, ?_, ?_, ?_⟩
  · simpa using inv.keys
  · exact List.nodup_cons.mpr ⟨hv, inv.nodup⟩
  · rintro p hp b hb
    rcases List.mem_cons.mp hp with h' | h'
    · have : b = u := by
        have := congrArg Prod.snd h'
        simp at this
        rw [this] at hb
        exact (Option.some.inj hb).symm
      exact this ▸ List.mem_cons_of_mem _ hu
    · exact List.mem_cons_of_mem _ (inv.parent_mem p h' b hb)
  · rintro p hp b hb
    rcases List.mem_cons.mp hp with h' | h'
    · have hb' : b = u := by
        have := congrArg Prod.snd h'
        simp at this
        rw [this] at hb
        exact (Option.some.inj hb).symm
      have hp' : p.1 = v := by
        have := congrArg Prod.fst h'
        simpa using this
      rw [hb', hp']
      exact hadj
    · exact inv.parent_adj p h' b hb
  · rintro p hp b hb
    rcases List.mem_cons.mp hp with h' | h'
    · have hb' : b = u := by
        have := congrArg Prod.snd h'
        simp at this
        rw [this] at hb
        exact (Option.some.inj hb).symm
      have hp' : p.1 = v := by
        have := congrArg Prod.fst h'
        simpa using this
      rw [hb', hp', List.indexOf_cons_self, List.indexOf_cons_ne _ huv.symm]
      exact Nat.succ_pos _
    · have hkp : p.1 ∈ visited := by
        rw [← inv.keys]
        exact List.mem_map_of_mem Prod.fst h'
      have hkb : b ∈ visited := inv.parent_mem p h' b hb
      have hp1 : p.1 ≠ v := fun h => hv (h ▸ hkp)
      have hb1 : b ≠ v := fun h => hv (h ▸ hkb)
      rw [List.indexOf_cons_ne _ (fun h => hp1 h.symm),
        List.indexOf_cons_ne _ (fun h => hb1 h.symm)]
      exact Nat.succ_lt_succ (inv.parent_idx p h' b hb)
  · exact List.mem_cons_of_mem _ inv.root_mem
  · rintro x hx
    rcases List.mem_cons.mp hx with h' | h'
    · exact h' ▸ Reach.tail (inv.reach u hu) hadj
    · exact inv.reach x h'
  · simpa [List.filter_cons] using inv.nones
  · rintro x hx
    rcases List.mem_cons.mp hx with h' | h'
    · refine Or.inr ⟨q, hq, ?_⟩
      rcases hdir with h'' | h''
      · exact Or.inr (by rw [h'', h'])
      · exact Or.inl (by rw [h'', h'])
    · exact inv.vis_sub x h'

theorem primLoop_ok (E : List (Edge × Weight)) (r : Epoch) :
    ∀ (k : ℕ) (visited : List Epoch) (tree : List (Epoch × Option Epoch))
    (t : List (Epoch × Option Epoch)),
    primLoop E k visited tree = .ok t → PrimInv E r visited tree →
    ∃ vfin, PrimInv E r vfin t ∧ vfin.length = visited.length + k := by
  intro k
  induction k with
  | zero =>
    intro visited tree t h inv
    exact ⟨visited, by simpa using (Except.ok.inj h) ▸ inv, by omega⟩
  | succ k ih =>
    intro visited tree t h inv
    unfold primLoop at h
    cases hpick : pickCrossing E visited with
    | none => rw [hpick] at h; exact absurd h (by simp)
    | some c =>
      obtain ⟨u, v, w⟩ := c
      rw [hpick] at h
      obtain ⟨vfin, hinv, hlen⟩ :=
        ih (v :: visited) ((v, some u) :: tree) t h
          (PrimInv.step E r visited tree u v w inv hpick)
      exact ⟨vfin, hinv, by simp at hlen; omega⟩

theorem primLoop_error (E : List (Edge × Weight)) :
    ∀ (k : ℕ) (visited : List Epoch) (tree : List (Epoch × Option Epoch))
    (e : PyRateError), primLoop E k visited tree = .error e →
    e = .DisconnectedGraphError := by
  intro k
  induction k with
  | zero => intro visited tree e h; exact absurd h (by simp [primLoop])
  | succ k ih =>
    intro visited tree e h
    unfold primLoop at h
    cases hpick : pickCrossing E visited with
    | none =>
      rw [hpick] at h
      exact (Except.error.inj h).symm
    | some c =>
      obtain ⟨u, v, w⟩ := c
      rw [hpick] at h
      exact ih (v :: visited) ((v, some u) :: tree) e h

/-! ### The pixel loop of `mst_matrix` -/

/-- The oracle fails only with the disconnected-graph error. -/
theorem mst_error (g : graph) (e : PyRateError)
    (h : minimal_spanning_tree g = .error e) : e = .DisconnectedGraphError := by
  unfold minimal_spanning_tree at h
  cases hc : canonNodes g with
  | nil => rw [hc] at h; exact absurd h (by simp)
  | cons r rest =>
    rw [hc] at h
    exact primLoop_error (canonEdges g) rest.length [r] [(r, none)] e h

theorem ifgEws_length (ifgs : List Ifg) : (ifgEws ifgs).length = ifgs.length := by
  simp [ifgEws, ifgEdges, ifgWeights]

theorem pixelValues_length (ifgs : List Ifg) (y x : ℕ) :
    (pixelValues ifgs y x).length = ifgs.length := by
  simp [pixelValues]

/-- The state invariant of the shared graph across the pixel loop: the node
set is still the full epoch list, edge ids are distinct, and every active
entry comes from the cached edge/weight table. -/
def MatrixInv (ifgs : List Ifg) (epochs : List Epoch) (g : graph) : Prop :=
  g.nodes = epochs ∧ GoodGraph (ifgEws ifgs) g

theorem processPixel_preserves (ifgs : List Ifg) (epochs : List Epoch)
    (dmst : List (Epoch × Option Epoch)) (g : graph) (values : List Phase)
    (out : PixelOutcome) (hlen : values.length = ifgs.length)
    (hinv : MatrixInv ifgs epochs g)
    (h : processPixel (ifgEdges ifgs) (ifgWeights ifgs) ifgs.length dmst g
      values = .ok out) :
    MatrixInv ifgs epochs out.g := by
  simp only [processPixel] at h
  split at h
  · exact (Except.ok.inj h) ▸ hinv
  · split at h
    · exact (Except.ok.inj h) ▸ hinv
    · have hlen' : (ifgEws ifgs).length ≤ values.length := by
        rw [ifgEws_length ifgs, hlen]
      cases hm : minimal_spanning_tree
          (syncEdges g (values.zip ((ifgEdges ifgs).zip (ifgWeights ifgs)))) with
      | error e => rw [hm] at h; exact absurd h (by simp [Except.map])
      | ok m =>
        rw [hm] at h
        have hout := Except.ok.inj h
        rw [← hout]
        constructor
        · show (syncEdges g _).nodes = epochs
          rw [syncEdges_nodes]
          exact hinv.1
        · exact syncEdges_zip_good values (ifgEws ifgs) g hlen' hinv.2

theorem processPixel_error (edges : List Edge) (weights : List Weight)
    (num_ifgs : ℕ) (dmst : List (Epoch × Option Epoch)) (g : graph)
    (values : List Phase) (e : PyRateError)
    (h : processPixel edges weights num_ifgs dmst g values = .error e) :
    e = .DisconnectedGraphError := by
  simp only [processPixel] at h
  split at h
  · exact absurd h (by simp)
  · split at h
    · exact absurd h (by simp)
    · cases hm : minimal_spanning_tree
          (syncEdges g (values.zip (edges.zip weights))) with
      | error e' =>
        rw [hm] at h
        have : e' = e := by simpa [Except.map] using h
        exact this ▸ mst_error _ e' hm
      | ok m => rw [hm] at h; exact absurd h (by simp [Except.map])

theorem runPixels_keys (ifgs : List Ifg) (dmst : List (Epoch × Option Epoch)) :
    ∀ (pixels : List (ℕ × ℕ)) (g : graph) (acc wf : List ((ℕ × ℕ) × Cell)),
    runPixels ifgs dmst g acc pixels = .ok wf →
    wf.map Prod.fst = acc.map Prod.fst ++ pixels := by
  intro pixels
  induction pixels with
  | nil =>
    intro g acc wf h
    have : acc = wf := Except.ok.inj h
    simp [← this]
  | cons p ps ih =>
    intro g acc wf h
    unfold runPixels at h
    cases hp : processPixel (ifgEdges ifgs) (ifgWeights ifgs) ifgs.length dmst g
        (pixelValues ifgs p.1 p.2) with
    | error e => rw [hp] at h; exact absurd h (by simp)
    | ok out =>
      rw [hp] at h
      have := ih out.g (acc ++ [(p, out.cell)]) wf h
      simpa using this

theorem runPixels_cells (ifgs : List Ifg) (epochs : List Epoch)
    (dmst : List (Epoch × Option Epoch)) (hlen : ∀ y x, (pixelValues ifgs y x).length = ifgs.length) :
    ∀ (pixels : List (ℕ × ℕ)) (g : graph) (acc wf : List ((ℕ × ℕ) × Cell)),
    runPixels ifgs dmst g acc pixels = .ok wf → MatrixInv ifgs epochs g →
    ∀ q ∈ wf, q ∈ acc ∨
      ∃ gp out, MatrixInv ifgs epochs gp ∧
        processPixel (ifgEdges ifgs) (ifgWeights ifgs) ifgs.length dmst gp
          (pixelValues ifgs q.1.1 q.1.2) = .ok out ∧
        out.cell = q.2 ∧ q.1 ∈ pixels := by
  intro pixels
  induction pixels with
  | nil =>
    intro g acc wf h _ q hq
    have : acc = wf := Except.ok.inj h
    exact Or.inl (this ▸ hq)
  | cons p ps ih =>
    intro g acc wf h hinv q hq
    unfold runPixels at h
    cases hp : processPixel (ifgEdges ifgs) (ifgWeights ifgs) ifgs.length dmst g
        (pixelValues ifgs p.1 p.2) with
    | error e => rw [hp] at h; exact absurd h (by simp)
    | ok out =>
      rw [hp] at h
      have hinv' := processPixel_preserves ifgs epochs dmst g _ out
        (hlen p.1 p.2) hinv hp
      rcases ih out.g (acc ++ [(p, out.cell)]) wf h hinv' q hq with h' | h'
      · rcases List.mem_append.mp h' with h'' | h''
        · exact Or.inl h''
        · have hq' : q = (p, out.cell) := by simpa using h''
          exact Or.inr ⟨g, out, hinv, by rw [hq']; exact hp, by rw [hq'],
            by rw [hq']; exact List.mem_cons_self _ _⟩
      · obtain ⟨gp, o, h1, h2, h3, h4⟩ := h'
        exact Or.inr ⟨gp, o, h1, h2, h3, List.mem_cons_of_mem _ h4⟩

theorem runPixels_mono (ifgs : List Ifg) (dmst : List (Epoch × Option Epoch)) :
    ∀ (pixels : List (ℕ × ℕ)) (g : graph) (acc wf : List ((ℕ × ℕ) × Cell)),
    runPixels ifgs dmst g acc pixels = .ok wf → ∀ q ∈ acc, q ∈ wf := by
  intro pixels
  induction pixels with
  | nil =>
    intro g acc wf h q hq
    exact (Except.ok.inj h) ▸ hq
  | cons p ps ih =>
    intro g acc wf h q hq
    unfold runPixels at h
    cases hp : processPixel (ifgEdges ifgs) (ifgWeights ifgs) ifgs.length dmst g
        (pixelValues ifgs p.1 p.2) with
    | error e => rw [hp] at h; exact absurd h (by simp)
    | ok out =>
      rw [hp] at h
      exact ih out.g _ wf h q (List.mem_append_left _ hq)

theorem runPixels_covered (ifgs : List Ifg) (epochs : List Epoch)
    (dmst : List (Epoch × Option Epoch))
    (hlen : ∀ y x, (pixelValues ifgs y x).length = ifgs.length) :
    ∀ (pixels : List (ℕ × ℕ)) (g : graph) (acc wf : List ((ℕ × ℕ) × Cell)),
    runPixels ifgs dmst g acc pixels = .ok wf → MatrixInv ifgs epochs g →
    ∀ p ∈ pixels, ∃ gp out, MatrixInv ifgs epochs gp ∧
      processPixel (ifgEdges ifgs) (ifgWeights ifgs) ifgs.length dmst gp
        (pixelValues ifgs p.1 p.2) = .ok out ∧ (p, out.cell) ∈ wf := by
  intro pixels
  induction pixels with
  | nil => intro g acc wf _ _ p hp; exact absurd hp (by simp)
  | cons p' ps ih =>
    intro g acc wf h hinv p hp
    unfold runPixels at h
    cases hp' : processPixel (ifgEdges ifgs) (ifgWeights ifgs) ifgs.length dmst g
        (pixelValues ifgs p'.1 p'.2) with
    | error e => rw [hp'] at h; exact absurd h (by simp)
    | ok out =>
      rw [hp'] at h
      have hinv' := processPixel_preserves ifgs epochs dmst g _ out
        (hlen p'.1 p'.2) hinv hp'
      rcases List.mem_cons.mp hp with h' | h'
      · refine ⟨g, out, hinv, by rw [h']; exact hp', ?_⟩
        have hpref : (p', out.cell) ∈ acc ++ [(p', out.cell)] := by simp
        have hmono := runPixels_mono ifgs dmst ps out.g _ wf h
        exact h' ▸ hmono _ hpref
      · obtain ⟨gp, o, h1, h2, h3⟩ := ih out.g _ wf h hinv' p h'
        exact ⟨gp, o, h1, h2, h3⟩

theorem runPixels_error (ifgs : List Ifg) (dmst : List (Epoch × Option Epoch)) :
    ∀ (pixels : List (ℕ × ℕ)) (g : graph) (acc : List ((ℕ × ℕ) × Cell))
    (e : PyRateError), runPixels ifgs dmst g acc pixels = .error e →
    e = .DisconnectedGraphError := by
  intro pixels
  induction pixels with
  | nil => intro g acc e h; exact absurd h (by simp [runPixels])
  | cons p ps ih =>
    intro g acc e h
    unfold runPixels at h
    cases hp : processPixel (ifgEdges ifgs) (ifgWeights ifgs) ifgs.length dmst g
        (pixelValues ifgs p.1 p.2) with
    | error e' =>
      rw [hp] at h
      have : e' = e := Except.error.inj h
      exact this ▸ processPixel_error _ _ _ _ _ _ e' hp
    | ok out =>
      rw [hp] at h
      exact ih out.g _ e h

/-! ### Eliminators and branch lemmas -/

theorem buildGraph_ok_elim (epochs : List Epoch) (ews : List (Edge × Weight))
    (g : graph) (h : buildGraph epochs ews = .ok g) :
    g = ⟨epochs, ews⟩ ∧ (∀ p ∈ ews, p.1.1 ∈ epochs ∧ p.1.2 ∈ epochs) ∧
      (ews.map Prod.fst).Nodup := by
  unfold buildGraph at h
  split at h
  · exact absurd h (by simp)
  · split at h
    · exact absurd h (by simp)
    · rename_i h1 h2
      exact ⟨(Except.ok.inj h).symm, not_not.mp h1, not_not.mp h2⟩

theorem buildGraph_ok_of (epochs : List Epoch) (ews : List (Edge × Weight))
    (h1 : ∀ p ∈ ews, p.1.1 ∈ epochs ∧ p.1.2 ∈ epochs)
    (h2 : (ews.map Prod.fst).Nodup) :
    buildGraph epochs ews = .ok ⟨epochs, ews⟩ := by
  unfold buildGraph
  rw [if_neg (not_not.mpr h1), if_neg (not_not.mpr h2)]

theorem processPixel_allvalid (edges : List Edge) (weights : List Weight)
    (num_ifgs : ℕ) (dmst : List (Epoch × Option Epoch)) (g : graph)
    (values : List Phase) (h : (values.filter isnan).length = 0) :
    processPixel edges weights num_ifgs dmst g values =
      .ok ⟨.tree dmst, g, 0⟩ := by
  simp only [processPixel]
  rw [if_pos h]

theorem processPixel_allnan (edges : List Edge) (weights : List Weight)
    (num_ifgs : ℕ) (dmst : List (Epoch × Option Epoch)) (g : graph)
    (values : List Phase) (h : (values.filter isnan).length = num_ifgs)
    (hpos : 0 < num_ifgs) :
    processPixel edges weights num_ifgs dmst g values =
      .ok ⟨.nodata, g, 0⟩ := by
  simp only [processPixel]
  rw [if_neg (by omega), if_pos h]

theorem processPixel_general (edges : List Edge) (weights : List Weight)
    (num_ifgs : ℕ) (dmst : List (Epoch × Option Epoch)) (g : graph)
    (values : List Phase) (out : PixelOutcome)
    (h0 : (values.filter isnan).length ≠ 0)
    (h1 : (values.filter isnan).length ≠ num_ifgs)
    (h : processPixel edges weights num_ifgs dmst g values = .ok out) :
    ∃ m, minimal_spanning_tree
        (syncEdges g (values.zip (edges.zip weights))) = .ok m ∧
      out = ⟨.tree (_remove_root_node m),
        syncEdges g (values.zip (edges.zip weights)), 1⟩ := by
  simp only [processPixel] at h
  rw [if_neg h0, if_neg h1] at h
  cases hm : minimal_spanning_tree
      (syncEdges g (values.zip (edges.zip weights))) with
  | error e => rw [hm] at h; exact absurd h (by simp [Except.map])
  | ok m =>
    rw [hm] at h
    exact ⟨m, rfl, (Except.ok.inj h).symm⟩

/-- The diff-equivalence engine: on the general path the shared graph is
synchronised to exactly the pixel's valid edges, so the oracle sees the same
canonical graph as a fresh build from the pixel's validity mask. -/
theorem processPixel_scratch (ifgs : List Ifg) (epochs : List Epoch)
    (dmst : List (Epoch × Option Epoch)) (g : graph) (values : List Phase)
    (hnd : ((ifgEws ifgs).map Prod.fst).Nodup)
    (hinv : MatrixInv ifgs epochs g)
    (hlen : values.length = ifgs.length)
    (h0 : (values.filter isnan).length ≠ 0)
    (h1 : (values.filter isnan).length ≠ ifgs.length) :
    (processPixel (ifgEdges ifgs) (ifgWeights ifgs) ifgs.length dmst g
        values).map PixelOutcome.cell =
      (minimal_spanning_tree ⟨epochs, activeEdges values (ifgEws ifgs)⟩).map
        (fun m => Cell.tree (_remove_root_node m)) := by
  have hlen' : (ifgEws ifgs).length ≤ values.length := by
    rw [ifgEws_length, hlen]
  have hgood2 := syncEdges_zip_good values (ifgEws ifgs) g hlen' hinv.2
  have hact_nd : ((activeEdges values (ifgEws ifgs)).map Prod.fst).Nodup :=
    List.Nodup.sublist
      (List.Sublist.map Prod.fst (activeEdges_sublist values (ifgEws ifgs))) hnd
  have hmst : minimal_spanning_tree (syncEdges g (values.zip (ifgEws ifgs)))
      = minimal_spanning_tree ⟨epochs, activeEdges values (ifgEws ifgs)⟩ := by
    apply mst_congr
    · show (syncEdges g (values.zip (ifgEws ifgs))).nodes.Perm epochs
      rw [syncEdges_nodes, hinv.1]
    · exact hgood2.1
    · exact hact_nd
    · exact syncEdges_active values (ifgEws ifgs) g hlen' hnd hinv.2
  simp only [processPixel]
  rw [if_neg h0, if_neg h1]
  have hz : values.zip ((ifgEdges ifgs).zip (ifgWeights ifgs))
      = values.zip (ifgEws ifgs) := rfl
  rw [hz, hmst]
  cases minimal_spanning_tree ⟨epochs, activeEdges values (ifgEws ifgs)⟩ with
  | error e => rfl
  | ok m => rfl

theorem mst_matrix_ok_parts (ifgs : List Ifg) (epochs : EpochList)
    (writes : List ((ℕ × ℕ) × Cell))
    (h : mst_matrix ifgs epochs = .ok writes) :
    ∃ m, buildGraph epochs.dates (ifgEws ifgs)
        = .ok ⟨epochs.dates, ifgEws ifgs⟩ ∧
      minimal_spanning_tree ⟨epochs.dates, ifgEws ifgs⟩ = .ok m ∧
      runPixels ifgs (_remove_root_node m) ⟨epochs.dates, ifgEws ifgs⟩ []
        (pixelList (matrixRows ifgs) (matrixCols ifgs)) = .ok writes := by
  unfold mst_matrix at h
  cases hb : buildGraph epochs.dates (ifgEws ifgs) with
  | error e => rw [hb] at h; exact absurd h (by simp)
  | ok g =>
    rw [hb] at h
    have hg := (buildGraph_ok_elim _ _ _ hb).1
    subst hg
    have h' : (match minimal_spanning_tree ⟨epochs.dates, ifgEws ifgs⟩ with
        | Except.error e => Except.error e
        | Except.ok dmst0 =>
          runPixels ifgs (_remove_root_node dmst0)
            ⟨epochs.dates, ifgEws ifgs⟩ []
            (pixelList (matrixRows ifgs) (matrixCols ifgs)))
        = Except.ok writes := h
    cases hm : minimal_spanning_tree ⟨epochs.dates, ifgEws ifgs⟩ with
    | error e => rw [hm] at h'; exact absurd h' (by simp)
    | ok m =>
      rw [hm] at h'
      exact ⟨m, rfl, rfl, h'⟩

theorem matrixRows_eq (ifgs : List Ifg) (R : ℕ) (hne : ifgs ≠ [])
    (hdims : ∀ i ∈ ifgs, i.FILE_LENGTH = R) : matrixRows ifgs = R := by
  unfold matrixRows
  rw [List.getLast?_eq_getLast ifgs hne]
  exact hdims _ (List.getLast_mem hne)

theorem matrixCols_eq (ifgs : List Ifg) (C : ℕ) (hne : ifgs ≠ [])
    (hdims : ∀ i ∈ ifgs, i.WIDTH = C) : matrixCols ifgs = C := by
  unfold matrixCols
  rw [List.getLast?_eq_getLast ifgs hne]
  exact hdims _ (List.getLast_mem hne)

theorem mem_pixelList (rows cols y x : ℕ) :
    (y, x) ∈ pixelList rows cols ↔ y < rows ∧ x < cols := by
  simp [pixelList, List.pair_mem_product]

theorem pixelList_nodup (rows cols : ℕ) : (pixelList rows cols).Nodup :=
  List.Nodup.product (List.nodup_range rows) (List.nodup_range cols)

theorem stackVal_not_nan (i : Ifg) (y x R C : ℕ)
    (h1 : i.phase_data.length = R)
    (h2 : ∀ row ∈ i.phase_data, row.length = C)
    (h3 : ∀ row ∈ i.phase_data, ∀ v ∈ row, isnan v = false)
    (hy : y < R) (hx : x < C) : isnan (stackVal i y x) = false := by
  cases hrow : i.phase_data.get? y with
  | none =>
    rw [List.get?_eq_none] at hrow
    omega
  | some row =>
    have hrowmem : row ∈ i.phase_data := List.get?_mem hrow
    cases hval : row.get? x with
    | none =>
      rw [List.get?_eq_none] at hval
      have := h2 row hrowmem
      omega
    | some v =>
      have hvmem : v ∈ row := List.get?_mem hval
      have hv := h3 row hrowmem v hvmem
      have hrow' : i.phase_data[y]? = some row := by
        rw [← List.get?_eq_getElem?]; exact hrow
      have hval' : row[x]? = some v := by
        rw [← List.get?_eq_getElem?]; exact hval
      have hsv : stackVal i y x = v := by simp [stackVal, hrow', hval']
      rw [hsv]
      exact hv

theorem runPixels_allvalid (ifgs : List Ifg)
    (dmst : List (Epoch × Option Epoch)) :
    ∀ (pixels : List (ℕ × ℕ)) (g : graph) (acc : List ((ℕ × ℕ) × Cell)),
    (∀ p ∈ pixels, ((pixelValues ifgs p.1 p.2).filter isnan).length = 0) →
    runPixels ifgs dmst g acc pixels =
      .ok (acc ++ pixels.map (fun p => (p, Cell.tree dmst))) := by
  intro pixels
  induction pixels with
  | nil => intro g acc _; simp [runPixels]
  | cons p ps ih =>
    intro g acc hall
    have hp := processPixel_allvalid (ifgEdges ifgs) (ifgWeights ifgs)
      ifgs.length dmst g (pixelValues ifgs p.1 p.2)
      (hall p (List.mem_cons_self _ _))
    show (match processPixel (ifgEdges ifgs) (ifgWeights ifgs) ifgs.length dmst g
        (pixelValues ifgs p.1 p.2) with
      | Except.error e => Except.error e
      | Except.ok out => runPixels ifgs dmst out.g (acc ++ [(p, out.cell)]) ps)
        = Except.ok (acc ++ (p :: ps).map (fun q => (q, Cell.tree dmst)))
    rw [hp]
    show runPixels ifgs dmst g (acc ++ [(p, Cell.tree dmst)]) ps
        = Except.ok (acc ++ (p :: ps).map (fun q => (q, Cell.tree dmst)))
    rw [ih g (acc ++ [(p, Cell.tree dmst)])
      (fun q hq => hall q (List.mem_cons_of_mem _ hq))]
    simp

/-- Splitting a parent map by presence of the root marker. -/
theorem length_filter_split (t : List (Epoch × Option Epoch)) :
    (t.filter (fun p => p.2.isSome)).length
      + (t.filter (fun p => p.2.isNone)).length = t.length := by
  induction t with
  | nil => rfl
  | cons a l ih =>
    cases ha : a.2 with
    | none => simp [List.filter_cons, ha]; omega
    | some b => simp [List.filter_cons, ha]; omega

/-- In a list of pairs with pairwise-distinct keys, the key determines the
entry. -/
theorem inj_of_nodup_keys {α β : Type} (l : List (α × β))
    (h : (l.map Prod.fst).Nodup) {p q : α × β} (hp : p ∈ l) (hq : q ∈ l)
    (he : p.1 = q.1) : p = q := by
  induction l with
  | nil => exact absurd hp (by simp)
  | cons a l ih =>
    rw [List.map_cons, List.nodup_cons] at h
    rcases List.mem_cons.mp hp with h1 | h1 <;>
      rcases List.mem_cons.mp hq with h2 | h2
    · rw [h1, h2]
    · exfalso
      have hq1 : q.1 ∈ l.map Prod.fst := List.mem_map_of_mem Prod.fst h2
      have ha1 : a.1 = q.1 := by rw [← h1]; exact he
      exact h.1 (ha1.symm ▸ hq1)
    · exfalso
      have hp1 : p.1 ∈ l.map Prod.fst := List.mem_map_of_mem Prod.fst h1
      have ha1 : p.1 = a.1 := by rw [he, h2]
      exact h.1 (ha1 ▸ hp1)
    · exact ih h.2 h1 h2

theorem canonNodes_perm (g : graph) : (canonNodes g).Perm g.nodes :=
  List.perm_insertionSort _ _

theorem canonEdges_perm (g : graph) : (canonEdges g).Perm g.edges :=
  List.perm_insertionSort _ _

theorem mst_ok_inv (g : graph) (t : List (Epoch × Option Epoch))
    (h : minimal_spanning_tree g = .ok t) (hne : g.nodes ≠ []) :
    ∃ r vfin, PrimInv (canonEdges g) r vfin t ∧ r ∈ g.nodes ∧
      vfin.length = g.nodes.length := by
  unfold minimal_spanning_tree at h
  cases hc : canonNodes g with
  | nil =>
    have : g.nodes = [] := ((canonNodes_perm g).symm.trans (hc ▸ List.Perm.refl _)).eq_nil
    exact absurd this hne
  | cons r rest =>
    rw [hc] at h
    have inv0 : PrimInv (canonEdges g) r [r] [(r, none)] := by
      refine ⟨?_, ?_, ?_, ?_, ?_, ?_, ?_, ?_, ?_⟩
      · simp
      · simp
      · rintro p hp b hb
        have hpr : p = (r, none) := by simpa using hp
        rw [hpr] at hb; simp at hb
      · rintro p hp b hb
        have hpr : p = (r, none) := by simpa using hp
        rw [hpr] at hb; simp at hb
      · rintro p hp b hb
        have hpr : p = (r, none) := by simpa using hp
        rw [hpr] at hb; simp at hb
      · simp
      · rintro x hx
        have hxr : x = r := by simpa using hx
        rw [hxr]; exact Reach.refl r
      · simp
      · rintro x hx
        exact Or.inl (by simpa using hx)
    obtain ⟨vfin, hinv, hlen⟩ :=
      primLoop_ok (canonEdges g) r rest.length [r] [(r, none)] t h inv0
    have hrmem : r ∈ g.nodes := by
      rw [← (canonNodes_perm g).mem_iff, hc]
      exact List.mem_cons_self _ _
    refine ⟨r, vfin, hinv, hrmem, ?_⟩
    have hnl : g.nodes.length = (canonNodes g).length :=
      ((canonNodes_perm g).length_eq).symm
    rw [hnl, hc]
    simp at hlen
    simp [hlen]
    omega

theorem mst_ok_full (g : graph) (t : List (Epoch × Option Epoch))
    (h : minimal_spanning_tree g = .ok t) (hne : g.nodes ≠ [])
    (hnd : g.nodes.Nodup)
    (hend : ∀ q ∈ g.edges, q.1.1 ∈ g.nodes ∧ q.1.2 ∈ g.nodes) :
    ∃ r vfin, PrimInv (canonEdges g) r vfin t ∧ r ∈ g.nodes ∧
      vfin.length = g.nodes.length ∧ (∀ x, x ∈ vfin ↔ x ∈ g.nodes) := by
  obtain ⟨r, vfin, hinv, hr, hlen⟩ := mst_ok_inv g t h hne
  have hsub : ∀ x ∈ vfin, x ∈ g.nodes := by
    intro x hx
    rcases hinv.vis_sub x hx with h' | ⟨q, hq, h'⟩
    · exact h' ▸ hr
    · have hqe : q ∈ g.edges := (canonEdges_perm g).subset hq
      rcases h' with h'' | h''
      · exact h'' ▸ (hend q hqe).1
      · exact h'' ▸ (hend q hqe).2
  have hsubF : vfin.toFinset ⊆ g.nodes.toFinset := fun x hx =>
    List.mem_toFinset.mpr (hsub x (List.mem_toFinset.mp hx))
  have hcard : g.nodes.toFinset.card ≤ vfin.toFinset.card := by
    rw [List.toFinset_card_of_nodup hinv.nodup,
      List.toFinset_card_of_nodup hnd, hlen]
  have heq := Finset.eq_of_subset_of_card_le hsubF hcard
  refine ⟨r, vfin, hinv, hr, hlen, fun x => ?_⟩
  rw [← List.mem_toFinset, ← List.mem_toFinset (l := g.nodes), heq]

theorem mst_ok_connected (g : graph) (t : List (Epoch × Option Epoch))
    (h : minimal_spanning_tree g = .ok t) (hnd : g.nodes.Nodup)
    (hend : ∀ q ∈ g.edges, q.1.1 ∈ g.nodes ∧ q.1.2 ∈ g.nodes) :
    connectsAll g.nodes g.edges := by
  by_cases hne : g.nodes = []
  · intro x hx
    rw [hne] at hx
    exact absurd hx (by simp)
  · obtain ⟨r, vfin, hinv, hr, _, hmem⟩ := mst_ok_full g t h hne hnd hend
    have hreach : ∀ x ∈ g.nodes, Reach g.edges r x := by
      intro x hx
      exact Reach_congr _ _ (fun p => (canonEdges_perm g).mem_iff)
        (hinv.reach x ((hmem x).mpr hx))
    intro x hx y hy
    exact Reach.trans _ (Reach.symm _ (hreach x hx)) (hreach y hy)

theorem mst_ok_tree_shape (g : graph) (t : List (Epoch × Option Epoch))
    (h : minimal_spanning_tree g = .ok t) (hne : g.nodes ≠ [])
    (hnd : g.nodes.Nodup)
    (hend : ∀ q ∈ g.edges, q.1.1 ∈ g.nodes ∧ q.1.2 ∈ g.nodes) :
    (_remove_root_node t).length = g.nodes.length - 1 ∧
    ((_remove_root_node t).map Prod.fst).Nodup ∧
    Acyclic (_remove_root_node t) ∧
    ∃ r ∈ g.nodes, ∀ e, e ∈ (_remove_root_node t).map Prod.fst ↔
      e ∈ g.nodes ∧ e ≠ r := by
  obtain ⟨r, vfin, hinv, hr, hlen, hmem⟩ := mst_ok_full g t h hne hnd hend
  have htkeys : t.map Prod.fst = vfin := hinv.keys
  have htnd : (t.map Prod.fst).Nodup := by rw [htkeys]; exact hinv.nodup
  have htlen : t.length = vfin.length := by
    rw [← htkeys]; simp
  have hroot : (r, (none : Option Epoch)) ∈ t := by
    have hmem' : (r, (none : Option Epoch)) ∈
        t.filter (fun p => p.2.isNone) := by
      rw [hinv.nones]; exact List.mem_singleton.mpr rfl
    exact (List.filter_sublist t).subset hmem'
  refine ⟨?_, ?_, ?_, ?_⟩
  · have hsplit := length_filter_split t
    have hnone : (t.filter (fun p => p.2.isNone)).length = 1 := by
      rw [hinv.nones]; rfl
    have hrr : (_remove_root_node t).length
        = (t.filter (fun p => p.2.isSome)).length := rfl
    rw [hrr]
    omega
  · exact List.Nodup.sublist
      (List.Sublist.map Prod.fst (List.filter_sublist t)) htnd
  · refine ⟨fun x => vfin.length - vfin.indexOf x, ?_⟩
    intro p hp b hb
    have hpt : p ∈ t := (List.filter_sublist t).subset hp
    have h1 := hinv.parent_idx p hpt b hb
    have h2 := hinv.parent_mem p hpt b hb
    have h3 : p.1 ∈ vfin := by
      rw [← htkeys]; exact List.mem_map_of_mem _ hpt
    have h4 : vfin.indexOf b < vfin.length := List.indexOf_lt_length.mpr h2
    have h5 : vfin.indexOf p.1 < vfin.length := List.indexOf_lt_length.mpr h3
    show vfin.length - vfin.indexOf b < vfin.length - vfin.indexOf p.1
    omega
  · refine ⟨r, hr, fun e => ?_⟩
    constructor
    · intro he
      rw [List.mem_map] at he
      obtain ⟨p, hp, hpe⟩ := he
      have hpt : p ∈ t := (List.filter_sublist t).subset hp
      have hsome : p.2.isSome = true := (List.mem_filter.mp hp).2
      refine ⟨?_, ?_⟩
      · rw [← hpe]
        refine (hmem p.1).mp ?_
        rw [← htkeys]
        exact List.mem_map_of_mem _ hpt
      · intro her
        have hpr : p = (r, none) :=
          inj_of_nodup_keys t htnd hpt hroot (by rw [hpe, her])
        rw [hpr] at hsome
        simp at hsome
    · rintro ⟨hin, hner⟩
      have hev : e ∈ vfin := (hmem e).mpr hin
      rw [← htkeys, List.mem_map] at hev
      obtain ⟨p, hpt, hpe⟩ := hev
      cases hp2 : p.2 with
      | none =>
        have hpf : p ∈ t.filter (fun p => p.2.isNone) :=
          List.mem_filter.mpr ⟨hpt, by rw [hp2]; rfl⟩
        rw [hinv.nones] at hpf
        have hpr : p = (r, none) := by simpa using hpf
        rw [hpr] at hpe
        simp at hpe
        exact absurd hpe.symm hner
      | some b =>
        rw [List.mem_map]
        exact ⟨p, List.mem_filter.mpr ⟨hpt, by rw [hp2]; rfl⟩, hpe⟩

theorem default_mst_ok_parts (ifgs : List Ifg)
    (d : List (Epoch × Option Epoch)) (h : default_mst ifgs true = .ok d) :
    ∃ m, buildGraph (uniqueEpochs ifgs) (ifgEws ifgs)
        = .ok ⟨uniqueEpochs ifgs, ifgEws ifgs⟩ ∧
      minimal_spanning_tree ⟨uniqueEpochs ifgs, ifgEws ifgs⟩ = .ok m ∧
      d = _remove_root_node m := by
  unfold default_mst at h
  cases hb : buildGraph (uniqueEpochs ifgs) (ifgEws ifgs) with
  | error e => rw [hb] at h; exact absurd h (by simp)
  | ok g =>
    rw [hb] at h
    have hg := (buildGraph_ok_elim _ _ _ hb).1
    subst hg
    have h' : (match minimal_spanning_tree ⟨uniqueEpochs ifgs, ifgEws ifgs⟩ with
        | Except.error e => Except.error e
        | Except.ok mst =>
          Except.ok (if true = true then _remove_root_node mst else mst))
        = Except.ok d := h
    cases hm : minimal_spanning_tree ⟨uniqueEpochs ifgs, ifgEws ifgs⟩ with
    | error e => rw [hm] at h'; exact absurd h' (by simp)
    | ok m =>
      rw [hm] at h'
      refine ⟨m, rfl, rfl, ?_⟩
      have hd := Except.ok.inj h'
      simp at hd
      exact hd.symm

theorem mst_matrix_eq_run (ifgs : List Ifg) (epochs : EpochList)
    (m : List (Epoch × Option Epoch))
    (hb : buildGraph epochs.dates (ifgEws ifgs)
      = .ok ⟨epochs.dates, ifgEws ifgs⟩)
    (hm : minimal_spanning_tree ⟨epochs.dates, ifgEws ifgs⟩ = .ok m) :
    mst_matrix ifgs epochs = runPixels ifgs (_remove_root_node m)
      ⟨epochs.dates, ifgEws ifgs⟩ []
      (pixelList (matrixRows ifgs) (matrixCols ifgs)) := by
  unfold mst_matrix
  rw [hb]
  show (match minimal_spanning_tree ⟨epochs.dates, ifgEws ifgs⟩ with
    | Except.error e => Except.error e
    | Except.ok dmst0 =>
      runPixels ifgs (_remove_root_node dmst0) ⟨epochs.dates, ifgEws ifgs⟩ []
        (pixelList (matrixRows ifgs) (matrixCols ifgs))) = _
  rw [hm]

theorem processPixel_cases (edges : List Edge) (weights : List Weight)
    (num_ifgs : ℕ) (dmst : List (Epoch × Option Epoch)) (g : graph)
    (values : List Phase) (out : PixelOutcome)
    (h : processPixel edges weights num_ifgs dmst g values = .ok out) :
    (out = ⟨.tree dmst, g, 0⟩ ∧ (values.filter isnan).length = 0) ∨
    (out = ⟨.nodata, g, 0⟩ ∧ (values.filter isnan).length ≠ 0 ∧
      (values.filter isnan).length = num_ifgs) ∨
    (∃ m, minimal_spanning_tree
        (syncEdges g (values.zip (edges.zip weights))) = .ok m ∧
      out = ⟨.tree (_remove_root_node m),
        syncEdges g (values.zip (edges.zip weights)), 1⟩ ∧
      (values.filter isnan).length ≠ 0 ∧
      (values.filter isnan).length ≠ num_ifgs) := by
  simp only [processPixel] at h
  split at h
  · rename_i h0
    exact Or.inl ⟨(Except.ok.inj h).symm, h0⟩
  · rename_i h0
    split at h
    · rename_i h1
      exact Or.inr (Or.inl ⟨(Except.ok.inj h).symm, h0, h1⟩)
    · rename_i h1
      cases hm : minimal_spanning_tree
          (syncEdges g (values.zip (edges.zip weights))) with
      | error e => rw [hm] at h; exact absurd h (by simp [Except.map])
      | ok m =>
        rw [hm] at h
        exact Or.inr (Or.inr ⟨m, rfl, (Except.ok.inj h).symm, h0, h1⟩)

theorem connectsAll_congr (nodes₁ nodes₂ : List Epoch)
    (E₁ E₂ : List (Edge × Weight)) (hn : ∀ x, x ∈ nodes₁ ↔ x ∈ nodes₂)
    (he : ∀ p, p ∈ E₁ ↔ p ∈ E₂) (h : connectsAll nodes₁ E₁) :
    connectsAll nodes₂ E₂ := fun x hx y hy =>
  Reach_congr E₁ E₂ he (h x ((hn x).mpr hx) y ((hn y).mpr hy))

/-- Root extraction: a rooted reachability family gives pairwise
connectivity. -/
theorem connectsAll_of_root (nodes : List Epoch) (E : List (Edge × Weight))
    (r : Epoch) (h : ∀ x ∈ nodes, Reach E r x) : connectsAll nodes E :=
  fun x hx y hy => Reach.trans E (Reach.symm E (h x hx)) (h y hy)

theorem count_cells_le (rows : List (List Phase)) (C : ℕ) (p : Phase → Bool)
    (h2 : ∀ row ∈ rows, row.length = C) :
    (rows.map (fun r => (r.filter p).length)).sum ≤ rows.length * C := by
  calc (rows.map (fun r => (r.filter p).length)).sum
      ≤ (rows.map (fun r => r.length)).sum :=
        List.sum_le_sum (fun r _ => List.length_filter_le p r)
    _ = (rows.map (fun _ => C)).sum := by
        congr 1
        exact List.map_congr_left h2
    _ = rows.length * C := by
        rw [List.map_const']
        exact List.sum_const_nat _ _

/-! ### The claims -/

/-- C1: for every pixel on the general route, the active edges of the shared
graph immediately before `minimal_spanning_tree` is invoked are exactly the
interferogram edges whose value at the pixel is not NaN, and the pixel's
result equals building its active-edge subgraph from scratch — starting from
any loop-invariant graph state whatsoever, hence independent of which prior
pixels were visited and in which order. -/
theorem C1_diff_equivalence (ifgs : List Ifg) (epochs : List Epoch)
    (dmst : List (Epoch × Option Epoch)) (g : graph) (values : List Phase)
    (hnd : ((ifgEws ifgs).map Prod.fst).Nodup)
    (hinv : MatrixInv ifgs epochs g)
    (hlen : values.length = ifgs.length)
    (h0 : (values.filter isnan).length ≠ 0)
    (h1 : (values.filter isnan).length ≠ ifgs.length) :
    (∀ p, p ∈ (syncEdges g (values.zip (ifgEws ifgs))).edges ↔
      p ∈ activeEdges values (ifgEws ifgs)) ∧
    (processPixel (ifgEdges ifgs) (ifgWeights ifgs) ifgs.length dmst g
        values).map PixelOutcome.cell =
      (minimal_spanning_tree ⟨epochs, activeEdges values (ifgEws ifgs)⟩).map
        (fun m => Cell.tree (_remove_root_node m)) := by
  have hlen' : (ifgEws ifgs).length ≤ values.length := by
    rw [ifgEws_length, hlen]
  exact ⟨syncEdges_active values (ifgEws ifgs) g hlen' hnd hinv.2,
    processPixel_scratch ifgs epochs dmst g values hnd hinv hlen h0 h1⟩

/-- C3: at a pixel where every interferogram value is the missing marker,
`mst_matrix` stores the no-data sentinel, and the pixel step leaves the
shared graph untouched and performs zero oracle invocations — from any graph
state. -/
theorem C3_total_loss_sentinel (ifgs : List Ifg) (epochs : EpochList)
    (writes : List ((ℕ × ℕ) × Cell)) (y x : ℕ)
    (hok : mst_matrix ifgs epochs = .ok writes)
    (hy : y < matrixRows ifgs) (hx : x < matrixCols ifgs)
    (hall : ((pixelValues ifgs y x).filter isnan).length = ifgs.length)
    (hpos : 0 < ifgs.length) :
    ((y, x), Cell.nodata) ∈ writes ∧
    ∀ (g : graph) (dmst : List (Epoch × Option Epoch)),
      processPixel (ifgEdges ifgs) (ifgWeights ifgs) ifgs.length dmst g
        (pixelValues ifgs y x) = .ok ⟨Cell.nodata, g, 0⟩ := by
  have hstep : ∀ (g : graph) (dmst : List (Epoch × Option Epoch)),
      processPixel (ifgEdges ifgs) (ifgWeights ifgs) ifgs.length dmst g
        (pixelValues ifgs y x) = .ok ⟨Cell.nodata, g, 0⟩ :=
    fun g dmst => processPixel_allnan (ifgEdges ifgs) (ifgWeights ifgs)
      ifgs.length dmst g _ hall hpos
  refine ⟨?_, hstep⟩
  obtain ⟨m, hb, hm, hrun⟩ := mst_matrix_ok_parts ifgs epochs writes hok
  have hinv0 : MatrixInv ifgs epochs.dates ⟨epochs.dates, ifgEws ifgs⟩ :=
    ⟨rfl, (buildGraph_ok_elim _ _ _ hb).2.2, fun p hp => hp⟩
  obtain ⟨gp, out, _, hpp, hmem⟩ :=
    runPixels_covered ifgs epochs.dates (_remove_root_node m)
      (fun y x => pixelValues_length ifgs y x) _ _ [] writes hrun hinv0
      (y, x) ((mem_pixelList _ _ y x).mpr ⟨hy, hx⟩)
  have hout : out = ⟨Cell.nodata, gp, 0⟩ :=
    Except.ok.inj (hpp.symm.trans (hstep gp (_remove_root_node m)))
  rw [hout] at hmem
  exact hmem

/-- C4: no parent map returned by `default_mst` with `noroot`, and no tree
stored in any cell of the `mst_matrix` result grid, contains an entry whose
value is the root marker `None`. -/
theorem C4_root_exclusion (ifgs : List Ifg) (epochs : EpochList) :
    (∀ d, default_mst ifgs true = .ok d →
      ∀ a : Epoch, (a, (none : Option Epoch)) ∉ d) ∧
    (∀ writes, mst_matrix ifgs epochs = .ok writes →
      ∀ q ∈ writes, ∀ t, q.2 = Cell.tree t →
        ∀ a : Epoch, (a, (none : Option Epoch)) ∉ t) := by
  have hno : ∀ (m : List (Epoch × Option Epoch)) (a : Epoch),
      (a, (none : Option Epoch)) ∉ _remove_root_node m := by
    intro m a hmem
    have := (List.mem_filter.mp hmem).2
    simp at this
  constructor
  · intro d hd a
    obtain ⟨m, _, _, hdm⟩ := default_mst_ok_parts ifgs d hd
    rw [hdm]
    exact hno m a
  · intro writes hok q hq t ht a
    obtain ⟨m, hb, hm, hrun⟩ := mst_matrix_ok_parts ifgs epochs writes hok
    have hinv0 : MatrixInv ifgs epochs.dates ⟨epochs.dates, ifgEws ifgs⟩ :=
      ⟨rfl, (buildGraph_ok_elim _ _ _ hb).2.2, fun p hp => hp⟩
    rcases runPixels_cells ifgs epochs.dates (_remove_root_node m)
        (fun y x => pixelValues_length ifgs y x) _ _ [] writes hrun hinv0
        q hq with h' | ⟨gp, out, _, hpp, hcell, _⟩
    · exact absurd h' (by simp)
    · rcases processPixel_cases _ _ _ _ _ _ _ hpp with
        ⟨ho, _⟩ | ⟨ho, _⟩ | ⟨m2, _, ho, _⟩
      · rw [ho] at hcell
        rw [← hcell] at ht
        have htm : t = _remove_root_node m := by
          simpa using ht.symm
        rw [htm]
        exact hno m a
      · rw [ho] at hcell
        rw [← hcell] at ht
        exact absurd ht.symm (by simp)
      · rw [ho] at hcell
        rw [← hcell] at ht
        have htm : t = _remove_root_node m2 := by
          simpa using ht.symm
        rw [htm]
        exact hno m2 a

/-- C6: graph construction validates its input — an edge whose endpoint is
outside the epoch set yields `InvalidTopologyError`; with valid endpoints, a
duplicated edge id yields `DuplicateEdgeError`; valid input builds the graph
without error. -/
theorem C6_construction_validation (epochs : List Epoch)
    (ews : List (Edge × Weight)) :
    ((∃ p ∈ ews, p.1.1 ∉ epochs ∨ p.1.2 ∉ epochs) →
      buildGraph epochs ews = .error .InvalidTopologyError) ∧
    ((∀ p ∈ ews, p.1.1 ∈ epochs ∧ p.1.2 ∈ epochs) →
      ¬ (ews.map Prod.fst).Nodup →
      buildGraph epochs ews = .error .DuplicateEdgeError) ∧
    ((∀ p ∈ ews, p.1.1 ∈ epochs ∧ p.1.2 ∈ epochs) →
      (ews.map Prod.fst).Nodup →
      buildGraph epochs ews = .ok ⟨epochs, ews⟩) := by
  refine ⟨?_, ?_, buildGraph_ok_of epochs ews⟩
  · intro h
    unfold buildGraph
    rw [if_pos]
    intro hall
    obtain ⟨p, hp, hor⟩ := h
    rcases hor with h' | h'
    · exact h' (hall p hp).1
    · exact h' (hall p hp).2
  · intro h1 h2
    unfold buildGraph
    rw [if_neg (not_not.mpr h1), if_pos h2]

/-- C9: throughout one `mst_matrix` call the node set never changes — the
sync loop only activates/deactivates edges (it preserves the node list of
any graph), and at every pixel of a successful run the shared graph, the
synced graph handed to the oracle, and the post-pixel graph all carry
exactly the full epoch set as nodes. -/
theorem C9_node_set_invariant (ifgs : List Ifg) (epochs : EpochList)
    (writes : List ((ℕ × ℕ) × Cell))
    (hok : mst_matrix ifgs epochs = .ok writes) :
    (∀ (g : graph) (l : List (Phase × Edge × Weight)),
      (syncEdges g l).nodes = g.nodes) ∧
    ∀ p ∈ pixelList (matrixRows ifgs) (matrixCols ifgs),
      ∃ (gp : graph) (dmst : List (Epoch × Option Epoch))
        (out : PixelOutcome),
        gp.nodes = epochs.dates ∧
        (syncEdges gp ((pixelValues ifgs p.1 p.2).zip (ifgEws ifgs))).nodes
          = epochs.dates ∧
        processPixel (ifgEdges ifgs) (ifgWeights ifgs) ifgs.length dmst gp
          (pixelValues ifgs p.1 p.2) = .ok out ∧
        out.g.nodes = epochs.dates := by
  refine ⟨fun g l => syncEdges_nodes l g, ?_⟩
  intro p hp
  obtain ⟨m, hb, hm, hrun⟩ := mst_matrix_ok_parts ifgs epochs writes hok
  have hinv0 : MatrixInv ifgs epochs.dates ⟨epochs.dates, ifgEws ifgs⟩ :=
    ⟨rfl, (buildGraph_ok_elim _ _ _ hb).2.2, fun p hp => hp⟩
  obtain ⟨gp, out, hinva, hpp, _⟩ :=
    runPixels_covered ifgs epochs.dates (_remove_root_node m)
      (fun y x => pixelValues_length ifgs y x) _ _ [] writes hrun hinv0 p hp
  refine ⟨gp, _remove_root_node m, out, hinva.1, ?_, hpp, ?_⟩
  · rw [syncEdges_nodes]
    exact hinva.1
  · exact (processPixel_preserves ifgs epochs.dates (_remove_root_node m) gp
      _ out (pixelValues_length ifgs p.1 p.2) hinva hpp).1

/-- C10: `Ifg.nan_fraction` divides the NaN count by the cell count, except
that with `nan_converted` unset and a zero NaN count it divides the count of
zero-valued cells instead; either way the value lies in `[0, 1]`. -/
theorem C10_nan_fraction (i : Ifg)
    (h1 : i.phase_data.length = i.FILE_LENGTH)
    (h2 : ∀ row ∈ i.phase_data, row.length = i.WIDTH)
    (hpos : 0 < i.num_cells) :
    i.nan_fraction =
      (if i.nan_converted = false ∧ countNan i.phase_data = 0
        then (countZero i.phase_data : ℚ)
        else (countNan i.phase_data : ℚ)) / (i.num_cells : ℚ) ∧
    0 ≤ i.nan_fraction ∧ i.nan_fraction ≤ 1 := by
  have hfrac : i.nan_fraction =
      ((if i.nan_converted = false ∧ countNan i.phase_data = 0
        then countZero i.phase_data
        else countNan i.phase_data : ℕ) : ℚ) / (i.num_cells : ℚ) := rfl
  have hcast : i.nan_fraction =
      (if i.nan_converted = false ∧ countNan i.phase_data = 0
        then (countZero i.phase_data : ℚ)
        else (countNan i.phase_data : ℚ)) / (i.num_cells : ℚ) := by
    rw [hfrac, apply_ite (fun n : ℕ => (n : ℚ))]
  refine ⟨hcast, ?_, ?_⟩
  · rw [hcast]
    refine div_nonneg ?_ (by positivity)
    split <;> positivity
  · have hboundN : countNan i.phase_data ≤ i.num_cells := by
      have := count_cells_le i.phase_data i.WIDTH isnan h2
      rw [h1] at this
      exact this
    have hboundZ : countZero i.phase_data ≤ i.num_cells := by
      have := count_cells_le i.phase_data i.WIDTH
        (fun v => decide (v = some 0)) h2
      rw [h1] at this
      exact this
    rw [hcast]
    rw [div_le_one (by exact_mod_cast hpos)]
    split
    · exact_mod_cast hboundZ
    · exact_mod_cast hboundN

/-- C2: for a phase stack with no missing markers anywhere, `mst_matrix`
succeeds and writes, at every pixel, exactly the whole-scene base MST that
`default_mst` returns for the same interferograms. -/
theorem C2_full_data_equivalence (ifgs : List Ifg) (epochs : EpochList)
    (d : List (Epoch × Option Epoch))
    (hperm : epochs.dates.Perm (uniqueEpochs ifgs))
    (hwf : ∀ i ∈ ifgs, i.phase_data.length = matrixRows ifgs ∧
      ∀ row ∈ i.phase_data, row.length = matrixCols ifgs)
    (hnonan : ∀ i ∈ ifgs, ∀ row ∈ i.phase_data, ∀ v ∈ row, isnan v = false)
    (hd : default_mst ifgs true = .ok d) :
    mst_matrix ifgs epochs =
      .ok ((pixelList (matrixRows ifgs) (matrixCols ifgs)).map
        (fun p => (p, Cell.tree d))) := by
  obtain ⟨m, hb, hm, hdm⟩ := default_mst_ok_parts ifgs d hd
  obtain ⟨_, hval, hnd⟩ := buildGraph_ok_elim _ _ _ hb
  have hval' : ∀ p ∈ ifgEws ifgs,
      p.1.1 ∈ epochs.dates ∧ p.1.2 ∈ epochs.dates := by
    intro p hp
    exact ⟨hperm.mem_iff.mpr (hval p hp).1, hperm.mem_iff.mpr (hval p hp).2⟩
  have hb2 : buildGraph epochs.dates (ifgEws ifgs)
      = .ok ⟨epochs.dates, ifgEws ifgs⟩ := buildGraph_ok_of _ _ hval' hnd
  have hm2 : minimal_spanning_tree ⟨epochs.dates, ifgEws ifgs⟩ = .ok m := by
    rw [mst_congr ⟨epochs.dates, ifgEws ifgs⟩ ⟨uniqueEpochs ifgs, ifgEws ifgs⟩
      hperm hnd hnd (fun p => Iff.rfl)]
    exact hm
  have hall : ∀ p ∈ pixelList (matrixRows ifgs) (matrixCols ifgs),
      ((pixelValues ifgs p.1 p.2).filter isnan).length = 0 := by
    intro p hp
    obtain ⟨hy, hx⟩ :=
      (mem_pixelList (matrixRows ifgs) (matrixCols ifgs) p.1 p.2).mp
        (by simpa using hp)
    rw [List.length_eq_zero, List.filter_eq_nil_iff]
    intro v hv
    rw [pixelValues, List.mem_map] at hv
    obtain ⟨i, hi, hsv⟩ := hv
    rw [← hsv]
    have hnn := stackVal_not_nan i p.1 p.2 (matrixRows ifgs) (matrixCols ifgs)
      (hwf i hi).1 (hwf i hi).2 (hnonan i hi) hy hx
    simp [hnn]
  rw [mst_matrix_eq_run ifgs epochs m hb2 hm2,
    runPixels_allvalid ifgs (_remove_root_node m) _ _ [] hall, ← hdm]
  simp

/-- C5: if some pixel on the general route has an active-edge subset that
does not connect all epochs, the whole `mst_matrix` call propagates
`DisconnectedGraphError` instead of storing a partial result. -/
theorem C5_disconnected_propagates (ifgs : List Ifg) (epochs : EpochList)
    (y x : ℕ)
    (hval : ∀ p ∈ ifgEws ifgs,
      p.1.1 ∈ epochs.dates ∧ p.1.2 ∈ epochs.dates)
    (hnd : ((ifgEws ifgs).map Prod.fst).Nodup)
    (hnodup : epochs.dates.Nodup)
    (hy : y < matrixRows ifgs) (hx : x < matrixCols ifgs)
    (h0 : ((pixelValues ifgs y x).filter isnan).length ≠ 0)
    (h1 : ((pixelValues ifgs y x).filter isnan).length ≠ ifgs.length)
    (hdisc : ¬ connectsAll epochs.dates
      (activeEdges (pixelValues ifgs y x) (ifgEws ifgs))) :
    mst_matrix ifgs epochs = .error .DisconnectedGraphError := by
  have hb : buildGraph epochs.dates (ifgEws ifgs)
      = .ok ⟨epochs.dates, ifgEws ifgs⟩ := buildGraph_ok_of _ _ hval hnd
  unfold mst_matrix
  rw [hb]
  show (match minimal_spanning_tree ⟨epochs.dates, ifgEws ifgs⟩ with
    | Except.error e => Except.error e
    | Except.ok dmst0 =>
      runPixels ifgs (_remove_root_node dmst0) ⟨epochs.dates, ifgEws ifgs⟩ []
        (pixelList (matrixRows ifgs) (matrixCols ifgs))) = _
  cases hm : minimal_spanning_tree ⟨epochs.dates, ifgEws ifgs⟩ with
  | error e => rw [mst_error _ e hm]
  | ok m =>
    show runPixels ifgs (_remove_root_node m) ⟨epochs.dates, ifgEws ifgs⟩ []
        (pixelList (matrixRows ifgs) (matrixCols ifgs)) = _
    cases hr : runPixels ifgs (_remove_root_node m)
        ⟨epochs.dates, ifgEws ifgs⟩ []
        (pixelList (matrixRows ifgs) (matrixCols ifgs)) with
    | error e => rw [runPixels_error ifgs (_remove_root_node m) _ _ _ e hr]
    | ok wf =>
      exfalso
      have hinv0 : MatrixInv ifgs epochs.dates ⟨epochs.dates, ifgEws ifgs⟩ :=
        ⟨rfl, hnd, fun p hp => hp⟩
      obtain ⟨gp, out, hinva, hpp, _⟩ :=
        runPixels_covered ifgs epochs.dates (_remove_root_node m)
          (fun y x => pixelValues_length ifgs y x) _ _ [] wf hr hinv0
          (y, x) ((mem_pixelList _ _ y x).mpr ⟨hy, hx⟩)
      rcases processPixel_cases _ _ _ _ _ _ _ hpp with
        ⟨_, hc⟩ | ⟨_, _, hc⟩ | ⟨m2, hm2, _, _, _⟩
      · exact h0 hc
      · exact h1 hc
      · set g2 := syncEdges gp
          ((pixelValues ifgs y x).zip
            ((ifgEdges ifgs).zip (ifgWeights ifgs))) with hg2
        have hlen' : (ifgEws ifgs).length ≤ (pixelValues ifgs y x).length := by
          rw [ifgEws_length, pixelValues_length]
        have hgood2 := syncEdges_zip_good (pixelValues ifgs y x)
          (ifgEws ifgs) gp hlen' hinva.2
        have hnodes2 : g2.nodes = epochs.dates := by
          rw [hg2, syncEdges_nodes]
          exact hinva.1
        have hend2 : ∀ q ∈ g2.edges,
            q.1.1 ∈ g2.nodes ∧ q.1.2 ∈ g2.nodes := by
          intro q hq
          rw [hnodes2]
          exact hval q (hgood2.2 q hq)
        have hconn2 := mst_ok_connected g2 m2 hm2
          (hnodes2 ▸ hnodup) hend2
        refine hdisc (connectsAll_congr g2.nodes epochs.dates g2.edges
          (activeEdges (pixelValues ifgs y x) (ifgEws ifgs))
          (fun z => by rw [hnodes2])
          (syncEdges_active (pixelValues ifgs y x) (ifgEws ifgs) gp
            hlen' hnd hinva.2) hconn2)

/-- C7: for a non-empty interferogram stack with uniform raster dimensions,
a successful `mst_matrix` run writes exactly one cell per pixel of the
rows × cols grid — the write keys are precisely the row-major pixel
enumeration, without duplicates, covering exactly the raster extent. -/
theorem C7_grid_written_once (ifgs : List Ifg) (epochs : EpochList)
    (writes : List ((ℕ × ℕ) × Cell)) (R C : ℕ) (hne : ifgs ≠ [])
    (hdimsR : ∀ i ∈ ifgs, i.FILE_LENGTH = R)
    (hdimsC : ∀ i ∈ ifgs, i.WIDTH = C)
    (hok : mst_matrix ifgs epochs = .ok writes) :
    writes.map Prod.fst = pixelList R C ∧ (writes.map Prod.fst).Nodup ∧
    ∀ y x, (y, x) ∈ writes.map Prod.fst ↔ y < R ∧ x < C := by
  obtain ⟨m, hb, hm, hrun⟩ := mst_matrix_ok_parts ifgs epochs writes hok
  have hkeys := runPixels_keys ifgs (_remove_root_node m) _ _ [] writes hrun
  rw [matrixRows_eq ifgs R hne hdimsR, matrixCols_eq ifgs C hne hdimsC]
    at hkeys
  simp only [List.map_nil, List.nil_append] at hkeys
  refine ⟨hkeys, ?_, ?_⟩
  · rw [hkeys]
    exact pixelList_nodup R C
  · intro y x
    rw [hkeys]
    exact mem_pixelList R C y x

/-- C8: every spanning tree stored in the result grid of a successful
`mst_matrix` run — in particular at any pixel whose active-edge subgraph is
connected — has exactly (epoch count − 1) parent entries, one per non-root
epoch, and its parent map is acyclic. -/
theorem C8_tree_size_acyclic (ifgs : List Ifg) (epochs : EpochList)
    (writes : List ((ℕ × ℕ) × Cell)) (y x : ℕ)
    (t : List (Epoch × Option Epoch))
    (hnodup : epochs.dates.Nodup) (hne : epochs.dates ≠ [])
    (hconn : connectsAll epochs.dates
      (activeEdges (pixelValues ifgs y x) (ifgEws ifgs)))
    (hok : mst_matrix ifgs epochs = .ok writes)
    (hcell : ((y, x), Cell.tree t) ∈ writes) :
    t.length = epochs.dates.length - 1 ∧ (t.map Prod.fst).Nodup ∧
    Acyclic t ∧
    ∃ r ∈ epochs.dates, ∀ e, e ∈ t.map Prod.fst ↔
      e ∈ epochs.dates ∧ e ≠ r := by
  obtain ⟨m, hb, hm, hrun⟩ := mst_matrix_ok_parts ifgs epochs writes hok
  obtain ⟨_, hval, hnd⟩ := buildGraph_ok_elim _ _ _ hb
  have hinv0 : MatrixInv ifgs epochs.dates ⟨epochs.dates, ifgEws ifgs⟩ :=
    ⟨rfl, hnd, fun p hp => hp⟩
  rcases runPixels_cells ifgs epochs.dates (_remove_root_node m)
      (fun y x => pixelValues_length ifgs y x) _ _ [] writes hrun hinv0
      ((y, x), Cell.tree t) hcell with h' | ⟨gp, out, hinva, hpp, hcv, _⟩
  · exact absurd h' (by simp)
  rcases processPixel_cases _ _ _ _ _ _ _ hpp with
    ⟨ho, _⟩ | ⟨ho, _⟩ | ⟨m2, hm2, ho, _, _⟩
  · -- fast path A: the cell is the base MST
    rw [ho] at hcv
    have htm : t = _remove_root_node m := by
      have := hcv
      simp at this
      exact this.symm
    have hshape := mst_ok_tree_shape ⟨epochs.dates, ifgEws ifgs⟩ m hm hne
      hnodup (fun q hq => hval q hq)
    rw [← htm] at hshape
    exact hshape
  · rw [ho] at hcv
    exact absurd hcv (by simp)
  · -- general path: the cell is the oracle result for the synced graph
    rw [ho] at hcv
    have htm : t = _remove_root_node m2 := by
      have := hcv
      simp at this
      exact this.symm
    set g2 := syncEdges gp
      ((pixelValues ifgs y x).zip ((ifgEdges ifgs).zip (ifgWeights ifgs)))
      with hg2
    have hlen' : (ifgEws ifgs).length ≤ (pixelValues ifgs y x).length := by
      rw [ifgEws_length, pixelValues_length]
    have hgood2 := syncEdges_zip_good (pixelValues ifgs y x)
      (ifgEws ifgs) gp hlen' hinva.2
    have hnodes2 : g2.nodes = epochs.dates := by
      rw [hg2, syncEdges_nodes]
      exact hinva.1
    have hend2 : ∀ q ∈ g2.edges, q.1.1 ∈ g2.nodes ∧ q.1.2 ∈ g2.nodes := by
      intro q hq
      rw [hnodes2]
      exact hval q (hgood2.2 q hq)
    have hshape := mst_ok_tree_shape g2 m2 hm2
      (by rw [hnodes2]; exact hne) (by rw [hnodes2]; exact hnodup) hend2
    rw [← htm, hnodes2] at hshape
    exact hshape

/-! ### Witnesses -/

section WitnessEvaluation

attribute [local semireducible] Rat.mul Rat.inv


/-- Witness for C1 at pixel (0,1) of the scenario, starting from the base
graph state. -/
theorem C1_witness :
    (processPixel (ifgEdges ifgsW) (ifgWeights ifgsW) ifgsW.length dmstW gW
        (pixelValues ifgsW 0 1)).map PixelOutcome.cell =
      (minimal_spanning_tree
        ⟨[1, 2, 3], activeEdges (pixelValues ifgsW 0 1) (ifgEws ifgsW)⟩).map
        (fun m => Cell.tree (_remove_root_node m)) :=
  (C1_diff_equivalence ifgsW [1, 2, 3] dmstW gW (pixelValues ifgsW 0 1)
    (by decide) ⟨rfl, by decide, fun p hp => hp⟩ (by decide) (by decide)
    (by decide)).2

/-- Witness for C2 on the fully valid 1×1 stack. -/
theorem C2_witness :
    default_mst jfgsW true = .ok [(3, some 1), (2, some 1)] ∧
    mst_matrix jfgsW epochsW =
      .ok ((pixelList (matrixRows jfgsW) (matrixCols jfgsW)).map
        (fun p => (p, Cell.tree [(3, some 1), (2, some 1)]))) :=
  ⟨rfl, C2_full_data_equivalence jfgsW epochsW [(3, some 1), (2, some 1)]
    (by decide) (by decide) (by decide) rfl⟩

/-- Witness for C3 at the totally missing pixel (1,0) of the scenario. -/
theorem C3_witness :
    ((1, 0), Cell.nodata) ∈ writesW ∧
    processPixel (ifgEdges ifgsW) (ifgWeights ifgsW) ifgsW.length dmstW gW
      (pixelValues ifgsW 1 0) = .ok ⟨Cell.nodata, gW, 0⟩ := by
  have h := C3_total_loss_sentinel ifgsW epochsW writesW 1 0 rfl (by decide)
    (by decide) (by decide) (by decide)
  exact ⟨h.1, h.2 gW dmstW⟩

/-- Witness for C4 on the scenario's base MST and the pixel-(0,1) tree. -/
theorem C4_witness :
    (1, (none : Option Epoch)) ∉ dmstW ∧
    (1, (none : Option Epoch)) ∉ tW01 := by
  have h := C4_root_exclusion ifgsW epochsW
  exact ⟨h.1 dmstW rfl 1,
    h.2 writesW rfl ((0, 1), Cell.tree tW01) (by decide) tW01 rfl 1⟩

/-- The single pixel of the `kfgsW` stack keeps only the E1–E2 edge, so
epoch 3 is unreachable. -/
theorem kfgs_disconnected :
    ¬ connectsAll epochsW.dates
      (activeEdges (pixelValues kfgsW 0 0) (ifgEws kfgsW)) := by
  intro h
  have hr := h 1 (by decide) 3 (by decide)
  have hS := Reach.closed (activeEdges (pixelValues kfgsW 0 0) (ifgEws kfgsW))
    (fun n => n = 1 ∨ n = 2) ?_ hr (Or.inl rfl)
  · rcases hS with h' | h' <;> simp at h'
  · intro p hp
    have hact : activeEdges (pixelValues kfgsW 0 0) (ifgEws kfgsW)
        = [((1, 2), 0)] := by decide
    rw [hact] at hp
    have hp' : p = ((1, 2), (0 : ℚ)) := by simpa using hp
    rw [hp']
    simp

/-- Witness for C5 on the disconnected 1×1 stack. -/
theorem C5_witness :
    mst_matrix kfgsW epochsW = .error .DisconnectedGraphError :=
  C5_disconnected_propagates kfgsW epochsW 0 0 (by decide) (by decide)
    (by decide) (by decide) (by decide) (by decide) (by decide)
    kfgs_disconnected

/-- Witness for C6 on small concrete inputs: an out-of-set endpoint, a
duplicate edge id, and the valid triangle. -/
theorem C6_witness :
    buildGraph [1, 2] [(((1 : ℕ), (3 : ℕ)), (0 : ℚ))]
      = .error .InvalidTopologyError ∧
    buildGraph [1, 2] [(((1 : ℕ), (2 : ℕ)), (0 : ℚ)), ((1, 2), 1)]
      = .error .DuplicateEdgeError ∧
    buildGraph [1, 2, 3] (ifgEws ifgsW) = .ok ⟨[1, 2, 3], ifgEws ifgsW⟩ := by
  refine ⟨(C6_construction_validation [1, 2] _).1 ?_,
    (C6_construction_validation [1, 2] _).2.1 ?_ ?_,
    (C6_construction_validation [1, 2, 3] _).2.2 ?_ ?_⟩ <;> decide

/-- Witness for C7 on the 2×2 scenario. -/
theorem C7_witness :
    writesW.map Prod.fst = pixelList 2 2 ∧ (writesW.map Prod.fst).Nodup ∧
    ((0, 1) ∈ writesW.map Prod.fst ↔ 0 < 2 ∧ 1 < 2) := by
  have h := C7_grid_written_once ifgsW epochsW writesW 2 2 (by decide)
    (by decide) (by decide) rfl
  exact ⟨h.1, h.2.1, h.2.2 0 1⟩

/-- Pixel (0,0) of the scenario keeps the whole triangle active, which
connects all three epochs. -/
theorem ifgsW_pixel00_connected :
    connectsAll epochsW.dates
      (activeEdges (pixelValues ifgsW 0 0) (ifgEws ifgsW)) := by
  apply connectsAll_of_root _ _ 1
  intro z hz
  have hz' : z ∈ [1, 2, 3] := hz
  rcases (by simpa using hz' : z = 1 ∨ z = 2 ∨ z = 3) with h | h | h
  · rw [h]
    exact Reach.refl 1
  · rw [h]
    exact Reach.tail (Reach.refl 1) (Or.inl ⟨(1 : ℚ)/2, by decide⟩)
  · rw [h]
    exact Reach.tail (Reach.refl 1) (Or.inl ⟨(1 : ℚ)/4, by decide⟩)

/-- Witness for C8 at pixel (0,0) of the scenario. -/
theorem C8_witness :
    dmstW.length = epochsW.dates.length - 1 ∧
    (dmstW.map Prod.fst).Nodup ∧ Acyclic dmstW := by
  have h := C8_tree_size_acyclic ifgsW epochsW writesW 0 0 dmstW (by decide)
    (by decide) ifgsW_pixel00_connected rfl (by decide)
  exact ⟨h.1, h.2.1, h.2.2.1⟩

/-- Witness for C9: the sync loop preserves the node list of the base
graph. -/
theorem C9_witness :
    (syncEdges gW ((pixelValues ifgsW 0 1).zip (ifgEws ifgsW))).nodes
      = gW.nodes :=
  (C9_node_set_invariant ifgsW epochsW writesW rfl).1 gW
    ((pixelValues ifgsW 0 1).zip (ifgEws ifgsW))

/-- Witness for C10 on the third scenario interferogram. -/
theorem C10_witness : 0 ≤ i3.nan_fraction ∧ i3.nan_fraction ≤ 1 := by
  have h := C10_nan_fraction i3 (by decide) (by decide) (by decide)
  exact ⟨h.2.1, h.2.2⟩

end WitnessEvaluation

end PyRate
